import Mathlib

/-!
Verification of the spot-detection core (subtitle parser, fuzzy text matcher,
detection/deduplication pipeline) of the `spot-detector` repository.

The Python sources are shallowly embedded: strings become `List Char`,
Python `float` values (time offsets, confidences) become `ℚ` (all arithmetic
performed by the code on them is exact at the magnitudes involved),
Python `int` becomes `ℤ`, and the one uncaught-exception path of the code
(`SpotDetector._time_to_seconds` on a malformed day-anchor string) is made
explicit with `Except`.  The ambient wall clock consulted by
`datetime.now()` is modelled as an explicit `now : ℕ` parameter.

Modelling notes on Python primitives (all are used only on ASCII data by the
repository):
* `str.lower` / `str.strip` / `\s` / `\d` are modelled on their ASCII
  behaviour; Unicode-only refinements (extra Unicode whitespace and digits)
  are outside the embedded fragment.
* `int(...)` / `float(...)` literal parsing is modelled for optional sign and
  decimal digit forms; exponent forms, `inf`/`nan` and `_` digit separators
  never occur in the data handled by this code.
-/

set_option maxHeartbeats 1000000

namespace SpotDetect

/-- Python strings are modelled as lists of characters. -/
abbrev Str := List Char

/-- The ASCII whitespace characters removed by Python `str.strip()` and
matched by the regex class `\s`. -/
def isPySpace (c : Char) : Bool :=
  c == ' ' || c == '\t' || c == '\n' || c == '\r' || c == '\x0b' || c == '\x0c'

/-- Python `str.lower()` (ASCII behaviour, applied per character). -/
def pyLower (s : Str) : Str := s.map Char.toLower

/-- Python `str.strip()` with no argument: remove leading and trailing
whitespace. -/
def pyStrip (s : Str) : Str :=
  ((s.dropWhile isPySpace).reverse.dropWhile isPySpace).reverse

/-- Python `str.split(sep)` for a one-character separator `sep`. -/
def pySplitChar (sep : Char) : Str → List Str
  | [] => [[]]
  | c :: rest =>
    match pySplitChar sep rest with
    | [] => [[]]
    | h :: t => if c = sep then [] :: h :: t else (c :: h) :: t

/-- Python `str.split(sep)` for the two-character separator `[a, b]`
(non-overlapping occurrences, scanned left to right). -/
def pySplit2 (a b : Char) : Str → List Str
  | [] => [[]]
  | [c] => [[c]]
  | c :: d :: rest =>
    if c = a ∧ d = b then [] :: pySplit2 a b rest
    else
      match pySplit2 a b (d :: rest) with
      | [] => [[c]]
      | h :: t => (c :: h) :: t

/-- Python `'\n'.join(lines)`. -/
def joinNL (lines : List Str) : Str := List.intercalate ['\n'] lines

/-- Value of a list of decimal digit characters, most significant first. -/
def natOfDigits (ds : Str) : ℕ :=
  ds.foldl (fun a c => 10 * a + (c.toNat - 48)) 0

/-- Python `int(s)` on a string: strip whitespace, optional sign, then decimal
digits; `none` models the `ValueError` raised on any other input. -/
def pyInt? (s : Str) : Option ℤ :=
  let t := pyStrip s
  match t with
  | '+' :: rest =>
    if !rest.isEmpty && rest.all Char.isDigit then some (natOfDigits rest) else none
  | '-' :: rest =>
    if !rest.isEmpty && rest.all Char.isDigit then some (-(natOfDigits rest : ℤ)) else none
  | rest =>
    if !rest.isEmpty && rest.all Char.isDigit then some (natOfDigits rest) else none

/-- The optional sign prefix accepted by Python `float(s)`. -/
def pySign (t : Str) : ℚ × Str :=
  match t with
  | '+' :: r => (1, r)
  | '-' :: r => (-1, r)
  | r => (1, r)

/-- Python `float(s)` on a string, for the decimal forms that reach it here:
strip, optional sign, digits with at most one `.`; `none` models
`ValueError`. -/
def pyFloat? (s : Str) : Option ℚ :=
  let t := pyStrip s
  let p : ℚ × Str := pySign t
  let ip := p.2.takeWhile (fun c => !(c == '.'))
  let rest := p.2.dropWhile (fun c => !(c == '.'))
  match rest with
  | [] =>
    if !ip.isEmpty && ip.all Char.isDigit then some (p.1 * natOfDigits ip) else none
  | '.' :: fp =>
    if (!ip.isEmpty || !fp.isEmpty) && ip.all Char.isDigit && fp.all Char.isDigit then
      some (p.1 * ((natOfDigits ip : ℚ) + (natOfDigits fp : ℚ) / (10 : ℚ) ^ fp.length))
    else none
  | _ => none

/-! ## `srt_parser.py` -/

/-- `srt_parser.Subtitle`: one SRT segment.  `start_seconds`/`end_seconds` are
filled in by `mkSubtitle` below, which models `__post_init__`. -/
structure Subtitle where
  index : ℤ
  start_time : Str
  end_time : Str
  text : Str
  start_seconds : ℚ
  end_seconds : ℚ
deriving DecidableEq, Repr

/-- `Subtitle._time_to_seconds`: convert `HH:MM:SS,MMM` to seconds; any
`ValueError`/`IndexError` is caught and degrades to `0.0`. -/
def sub_time_to_seconds (time_str : Str) : ℚ :=
  let parts := pySplitChar ':' (time_str.map (fun c => if c = ',' then '.' else c))
  match parts with
  | p0 :: p1 :: p2 :: _ =>
    match pyInt? p0, pyInt? p1, pyFloat? p2 with
    | some hours, some minutes, some seconds =>
      (hours : ℚ) * 3600 + (minutes : ℚ) * 60 + seconds
    | _, _, _ => 0
  | _ => 0

/-- Construction of a `Subtitle`, including the `__post_init__` computation of
the second offsets from the timecode strings. -/
def mkSubtitle (index : ℤ) (start_time end_time text : Str) : Subtitle :=
  ⟨index, start_time, end_time, text,
    sub_time_to_seconds start_time, sub_time_to_seconds end_time⟩

/-- The regex fragment `\d{2}:\d{2}:\d{2},\d{3}`: on success returns the
twelve matched characters and the remaining input. -/
def parseTimecode : Str → Option (Str × Str)
  | a1 :: a2 :: c1 :: b1 :: b2 :: c2 :: d1 :: d2 :: c3 :: e1 :: e2 :: e3 :: rest =>
    if a1.isDigit && a2.isDigit && c1 == ':' && b1.isDigit && b2.isDigit && c2 == ':' &&
        d1.isDigit && d2.isDigit && c3 == ',' && e1.isDigit && e2.isDigit && e3.isDigit then
      some ([a1, a2, c1, b1, b2, c2, d1, d2, c3, e1, e2, e3], rest)
    else none
  | _ => none

/-- The literal `-->` of the time-line regex: strip it from the front of the
remaining input, or fail. -/
def afterArrow : Str → Option Str
  | '-' :: '-' :: '>' :: r3 => some r3
  | _ => none

/-- `re.match(r'(\d{2}:\d{2}:\d{2},\d{3})\s*-->\s*(\d{2}:\d{2}:\d{2},\d{3})', line)`:
anchored at the start of the line, trailing input unconstrained; returns the
two captured timecode groups. -/
def matchTimeLine (s : Str) : Option (Str × Str) :=
  match parseTimecode s with
  | none => none
  | some (g1, r1) =>
    match afterArrow (r1.dropWhile isPySpace) with
    | none => none
    | some r3 =>
      match parseTimecode (r3.dropWhile isPySpace) with
      | none => none
      | some (g2, _) => some (g1, g2)

/-- One iteration of the block loop of `SRTParser.parse`: `none` models both
the `len(lines) < 3` skip and the `except (ValueError, IndexError): continue`
and failed-regex paths. -/
def parseBlock (block : Str) : Option Subtitle :=
  let lines := pySplitChar '\n' (pyStrip block)
  if lines.length < 3 then none
  else
    match pyInt? (lines.headD []) with
    | none => none
    | some index =>
      match matchTimeLine (lines.getD 1 []) with
      | none => none
      | some (g1, g2) =>
        some (mkSubtitle index g1 g2 (pyStrip (joinNL (lines.drop 2))))

/-- `srt_content.strip().split('\n\n')`. -/
def pyBlocks (srt_content : Str) : List Str :=
  pySplit2 '\n' '\n' (pyStrip srt_content)

/-- `SRTParser.parse`: iterate over the blocks, appending each successfully
parsed segment. -/
def parse (srt_content : Str) : List Subtitle :=
  (pyBlocks srt_content).foldl
    (fun subtitles block =>
      match parseBlock block with
      | some s => subtitles ++ [s]
      | none => subtitles)
    []

/-! ## `fuzzy_matcher.py`

`FuzzyMatcher.similarity_ratio` delegates to Python's
`difflib.SequenceMatcher(None, a, b).ratio()`.  That library routine is
embedded below: `ratio = 2 * M / (len a + len b)` (or `1.0` when both are
empty), where `M` is the total size of the matching blocks found by the
recursive longest-matching-block decomposition.  With `isjunk = None` the
junk set is empty; the `autojunk` heuristic (elements occurring more than
`1 + len b / 100` times in a `b` of length `≥ 200` are dropped from the
index `b2j`) is included.  The loops of `find_longest_match` and the
recursion of `get_matching_blocks` are expressed with explicit fuel that
provably dominates their iteration counts. -/

/-- The ascending list of positions of `c` in `b`. -/
def positionsOf (b : Str) (c : Char) : List ℕ :=
  ((b.enum).filter (fun p => p.2 == c)).map (fun p => p.1)

/-- `SequenceMatcher.__chain_b`: the index `b2j` of positions per element of
`b`, with popular elements removed by the `autojunk` heuristic. -/
def b2jOf (b : Str) (c : Char) : List ℕ :=
  let js := positionsOf b c
  if 200 ≤ b.length ∧ b.length / 100 + 1 < js.length then [] else js

/-- Total indexing used for the Python subscripts `a[i]`/`b[j]`; all
reachable accesses are in range. -/
def charAt (s : Str) (i : ℕ) : Char := s.getD i '\x00'

/-- Access `j2len.get(j, 0)` on the previous DP row. -/
def lookupRow (row : List (ℕ × ℕ)) (j : ℕ) : ℕ :=
  (((row.find? (fun p => p.1 == j)).map (fun p => p.2)).getD 0)

/-- Inner loop (`for j in b2j.get(a[i], [])`) of `find_longest_match`:
builds the new DP row and updates the current best block.  The Python
`continue`/`break` filtering of `j < blo` / `j >= bhi` is applied by the
caller (the position lists are ascending). -/
def dpInner (i : ℕ) (prev : List (ℕ × ℕ)) :
    List ℕ → List (ℕ × ℕ) → ℕ × ℕ × ℕ → List (ℕ × ℕ) × (ℕ × ℕ × ℕ)
  | [], new, best => (new, best)
  | j :: js, new, (bi, bj, bs) =>
    let k := (if j = 0 then 0 else lookupRow prev (j - 1)) + 1
    let best' := if bs < k then (i + 1 - k, j + 1 - k, k) else (bi, bj, bs)
    dpInner i prev js (new ++ [(j, k)]) best'

/-- Outer loop (`for i in range(alo, ahi)`) of `find_longest_match`. -/
def dpOuter (a : Str) (b2j : Char → List ℕ) (blo bhi : ℕ) :
    List ℕ → List (ℕ × ℕ) → ℕ × ℕ × ℕ → ℕ × ℕ × ℕ
  | [], _, best => best
  | i :: is, prev, best =>
    let js := (b2j (charAt a i)).filter (fun j => decide (blo ≤ j) && decide (j < bhi))
    let st := dpInner i prev js [] best
    dpOuter a b2j blo bhi is st.1 st.2

/-- The first `while` extension loop of `find_longest_match` (junk set is
empty, so the adjacent-junk loops are no-ops): grow the best block
backwards over equal characters. -/
def extendBack (a b : Str) (alo blo : ℕ) : ℕ → ℕ × ℕ × ℕ → ℕ × ℕ × ℕ
  | 0, st => st
  | fuel + 1, (bi, bj, bs) =>
    if alo < bi ∧ blo < bj ∧ charAt a (bi - 1) = charAt b (bj - 1) then
      extendBack a b alo blo fuel (bi - 1, bj - 1, bs + 1)
    else (bi, bj, bs)

/-- The second `while` extension loop of `find_longest_match`: grow the best
block forward over equal characters. -/
def extendFwd (a b : Str) (ahi bhi : ℕ) : ℕ → ℕ × ℕ × ℕ → ℕ × ℕ × ℕ
  | 0, st => st
  | fuel + 1, (bi, bj, bs) =>
    if bi + bs < ahi ∧ bj + bs < bhi ∧ charAt a (bi + bs) = charAt b (bj + bs) then
      extendFwd a b ahi bhi fuel (bi, bj, bs + 1)
    else (bi, bj, bs)

/-- `SequenceMatcher.find_longest_match` on `a[alo:ahi]` / `b[blo:bhi]`.
The fuel of each extension loop bounds its iteration count (`bi` strictly
decreases towards `alo ≥ 0`; `bi + bs` strictly increases towards
`ahi ≤ fuel + bi + bs`). -/
def find_longest_match (a b : Str) (b2j : Char → List ℕ)
    (alo ahi blo bhi : ℕ) : ℕ × ℕ × ℕ :=
  let dp := dpOuter a b2j blo bhi (List.range' alo (ahi - alo)) [] (alo, blo, 0)
  let e1 := extendBack a b alo blo dp.1 dp
  extendFwd a b ahi bhi ahi e1

/-- Total size of the matching blocks of `get_matching_blocks`, by the
library's recursive decomposition around each longest match.  The fuel
dominates the recursion depth: every recursive call strictly shrinks
`ahi - alo` (see `find_longest_match_bounds` below), so the initial fuel
`a.length + 1` used by `totalMatches` never runs out. -/
def matchingSizes : ℕ → Str → Str → (Char → List ℕ) → ℕ → ℕ → ℕ → ℕ → ℕ
  | 0, _, _, _, _, _, _, _ => 0
  | fuel + 1, a, b, b2j, alo, ahi, blo, bhi =>
    let m := find_longest_match a b b2j alo ahi blo bhi
    if m.2.2 = 0 then 0
    else
      matchingSizes fuel a b b2j alo m.1 blo m.2.1 + m.2.2 +
        matchingSizes fuel a b b2j (m.1 + m.2.2) ahi (m.2.1 + m.2.2) bhi

/-- `sum(size for (_, _, size) in SequenceMatcher(None, a, b).get_matching_blocks())`. -/
def totalMatches (a b : Str) : ℕ :=
  matchingSizes (a.length + 1) a b (b2jOf b) 0 a.length 0 b.length

/-- `SequenceMatcher.ratio()`: `2 * M / T`, or `1.0` when `T = 0`. -/
def ratioSM (a b : Str) : ℚ :=
  let total := a.length + b.length
  if total = 0 then 1 else 2 * (totalMatches a b : ℚ) / (total : ℚ)

/-- `fuzzy_matcher.FuzzyMatcher`: configuration of the matcher.  The
`max_distance` field is stored but never consulted by the matching
algorithm. -/
structure FuzzyMatcher where
  threshold : ℚ
  max_distance : ℤ
deriving DecidableEq, Repr

/-- `FuzzyMatcher.similarity_ratio`: `SequenceMatcher(None, s1.lower(),
s2.lower()).ratio() * 100`. -/
def similarity_ratio (s1 s2 : Str) : ℚ :=
  ratioSM (pyLower s1) (pyLower s2) * 100

/-- `FuzzyMatcher.find_in_text`: exact containment check first, then the
sliding-window fuzzy scan. -/
def FuzzyMatcher.find_in_text (m : FuzzyMatcher) (needle haystack : Str) :
    Option Str × ℚ :=
  let needle_lower := pyStrip (pyLower needle)
  let haystack_lower := pyStrip (pyLower haystack)
  if needle_lower <:+: haystack_lower then (some needle, 100)
  else
    let needle_len := needle_lower.length
    let best := (List.range (haystack_lower.length + 1 - needle_len)).foldl
      (fun best i =>
        let window := (haystack_lower.drop i).take needle_len
        let sim := similarity_ratio needle_lower window
        if best.2 < sim then (some window, sim) else best)
      ((none : Option Str), (0 : ℚ))
    if m.threshold ≤ best.2 then best else (none, 0)

/-! ## `models.py` -/

/-- `models.Detection`.  `date_detection` stores the abstract clock value
(`datetime.now()` at creation). -/
structure Detection where
  id : Option ℤ
  spot_id : ℤ
  enregistrement_id : ℤ
  start_time : Str
  end_time : Str
  start_seconds : ℚ
  end_seconds : ℚ
  confidence : ℚ
  match_type : Str
  date_detection : ℕ
  spot_nom : Option Str
  enreg_nom : Option Str
  enreg_chaine_id : Option Str
  enreg_chaine_nom : Option Str
  enreg_date : Option Str
deriving DecidableEq, Repr

/-- Decidable equality on `Except`, used only to evaluate the model on
concrete inputs. -/
instance {ε α : Type} [DecidableEq ε] [DecidableEq α] : DecidableEq (Except ε α) := fun a b =>
  match a, b with
  | .error e, .error f =>
    if h : e = f then isTrue (by rw [h]) else isFalse (fun hh => by cases hh; exact h rfl)
  | .ok x, .ok y =>
    if h : x = y then isTrue (by rw [h]) else isFalse (fun hh => by cases hh; exact h rfl)
  | .error _, .ok _ => isFalse (fun hh => by cases hh)
  | .ok _, .error _ => isFalse (fun hh => by cases hh)

/-! ## `detector_v2.py` -/

/-- Modelled from the spec: the repository imports `DEFAULT_THRESHOLD` from a
`config` module that is not part of the sources; the spec fixes the
configuration surface as `threshold` default `85`. -/
def DEFAULT_THRESHOLD : ℚ := 85

/-- Modelled from the spec: the reserved `maxDistance` configuration value,
default `2`, `currently unused by the algorithm`. -/
def DEFAULT_MAX_DISTANCE : ℤ := 2

/-- `detector_v2.SpotDetector`: holds the matcher built in `__init__`. -/
structure SpotDetector where
  matcher : FuzzyMatcher

/-- `SpotDetector()` with the default configuration. -/
def mkSpotDetector : SpotDetector := ⟨⟨DEFAULT_THRESHOLD, DEFAULT_MAX_DISTANCE⟩⟩

/-- `SpotDetector._time_to_seconds`: convert `HH:MM:SS` to seconds since
midnight.  Unlike the parser's converter this one catches nothing:
`.error` models the uncaught `IndexError`/`ValueError` on malformed
input. -/
def SpotDetector.time_to_seconds (time_str : Str) : Except Unit ℚ :=
  let parts := pySplitChar ':' time_str
  match parts.get? 0, parts.get? 1, parts.get? 2 with
  | some p0, some p1, some p2 =>
    match pyInt? p0, pyInt? p1, pyInt? p2 with
    | some hours, some minutes, some seconds =>
      .ok ((hours : ℚ) * 3600 + (minutes : ℚ) * 60 + (seconds : ℚ))
    | _, _, _ => .error ()
  | _, _, _ => .error ()

/-- Decimal digits of `n` left-padded with `'0'` to width `w`
(`f"{n:0wd}"` for `n ≥ 0`). -/
def padNum (w : ℕ) (n : ℤ) : Str :=
  let ds := Nat.toDigits 10 n.toNat
  List.replicate (w - ds.length) '0' ++ ds

/-- `SpotDetector._seconds_to_time`: format seconds-since-midnight as
`HH:MM:SS,MMM`, wrapping modulo 24h.  Python `%` returns a result with the
divisor's sign and `//` is floor division, so both are floor-based; the
`int(...)` truncations apply to non-negative values and are floors as
well. -/
def seconds_to_time (seconds : ℚ) : Str :=
  let s := seconds - 86400 * (⌊seconds / 86400⌋ : ℤ)
  let hours : ℤ := ⌊s / 3600⌋
  let minutes : ℤ := ⌊(s - 3600 * (⌊s / 3600⌋ : ℤ)) / 60⌋
  let secsQ : ℚ := s - 60 * (⌊s / 60⌋ : ℤ)
  let millis : ℤ := ⌊(secsQ - (⌊secsQ⌋ : ℤ)) * 1000⌋
  let secs : ℤ := ⌊secsQ⌋
  padNum 2 hours ++ [':'] ++ padNum 2 minutes ++ [':'] ++ padNum 2 secs ++
    [','] ++ padNum 3 millis

/-- Python truthiness of the `matched_text` result (`None` and the empty
string are falsy). -/
def truthyStr : Option Str → Bool
  | none => false
  | some s => !s.isEmpty

/-- `SpotDetector._find_segment_in_recording`: scan all recording segments
with the matcher and emit a candidate `Detection` for each qualifying
match.  The day anchor is converted first; its failure is the `.error`
case. -/
def find_segment_in_recording (d : SpotDetector) (now : ℕ)
    (spot_id enreg_id : ℤ) (spot_segment : Subtitle)
    (recording_subtitles : List Subtitle)
    (segment_pos_in_spot spot_duration : ℚ) (heure_debut : Str) :
    Except Unit (List Detection) :=
  match SpotDetector.time_to_seconds heure_debut with
  | .error e => .error e
  | .ok base_seconds =>
    .ok (recording_subtitles.filterMap (fun rec_subtitle =>
      let mc := FuzzyMatcher.find_in_text d.matcher spot_segment.text rec_subtitle.text
      if truthyStr mc.1 ∧ d.matcher.threshold ≤ mc.2 then
        let estimated_spot_start := rec_subtitle.start_seconds - segment_pos_in_spot
        let estimated_spot_end := estimated_spot_start + spot_duration
        let real_start_seconds := base_seconds + estimated_spot_start
        let real_end_seconds := base_seconds + estimated_spot_end
        some ⟨none, spot_id, enreg_id,
          seconds_to_time real_start_seconds, seconds_to_time real_end_seconds,
          real_start_seconds, real_end_seconds, mc.2,
          (if mc.2 = 100 then "exact".toList else "fuzzy".toList),
          now, none, none, none, none, none⟩
      else none))

/-- Grouping `by_enreg` of `_filter_and_group_matches`: a Python dict keyed
by recording id with per-key appends, i.e. keys in first-occurrence order,
each bucket holding that key's elements in list order.  The fuel is the
list length (the tail recursion is on a `filter`, which never grows). -/
def byEnregGo : ℕ → List Detection → List (ℤ × List Detection)
  | 0, _ => []
  | _, [] => []
  | n + 1, m :: rest =>
    (m.enregistrement_id,
      m :: rest.filter (fun x => x.enregistrement_id == m.enregistrement_id)) ::
      byEnregGo n (rest.filter (fun x => !(x.enregistrement_id == m.enregistrement_id)))

/-- The dict grouping, with adequate fuel. -/
def byEnreg (l : List Detection) : List (ℤ × List Detection) :=
  byEnregGo l.length l

/-- The key `lambda m: (m.start_seconds, -m.confidence)` of the `min` call,
as a strict lexicographic comparison. -/
def minKeyLt (x y : Detection) : Prop :=
  x.start_seconds < y.start_seconds ∨
    (x.start_seconds = y.start_seconds ∧ -x.confidence < -y.confidence)

instance : DecidableRel minKeyLt := fun x y =>
  decidable_of_iff
    (x.start_seconds < y.start_seconds ∨
      (x.start_seconds = y.start_seconds ∧ -x.confidence < -y.confidence))
    Iff.rfl

/-- Python `min(group, key=...)`: the first element of minimal key. -/
def pyMinKey (c : Detection) (grp : List Detection) : Detection :=
  grp.foldl (fun acc x => if minKeyLt x acc then x else acc) c

/-- The greedy cluster scan of `_filter_and_group_matches` on one
recording's sorted candidate list: absorb subsequent candidates while
`next.start_seconds - current.start_seconds < spot_duration`, keep the
key-minimal member of the cluster, continue after the cluster.  Fuel is
the list length (the scan continues on a `dropWhile`). -/
def clusterGo (dur : ℚ) : ℕ → List Detection → List Detection
  | 0, _ => []
  | _, [] => []
  | n + 1, c :: rest =>
    let grp := rest.takeWhile (fun m => decide (m.start_seconds - c.start_seconds < dur))
    let rest' := rest.dropWhile (fun m => decide (m.start_seconds - c.start_seconds < dur))
    pyMinKey c grp :: clusterGo dur n rest'

/-- The cluster scan with adequate fuel. -/
def clusterScan (dur : ℚ) (l : List Detection) : List Detection :=
  clusterGo dur l.length l

/-- `sorted(enreg_matches, key=lambda m: m.start_seconds)` (stable). -/
def startLe (x y : Detection) : Prop := x.start_seconds ≤ y.start_seconds

instance : DecidableRel startLe := fun x y =>
  decidable_of_iff (x.start_seconds ≤ y.start_seconds) Iff.rfl

/-- `filtered.sort(key=lambda m: (m.enregistrement_id, m.start_seconds))`
(stable), as a total lexicographic preorder. -/
def lexLe (x y : Detection) : Prop :=
  x.enregistrement_id < y.enregistrement_id ∨
    (x.enregistrement_id = y.enregistrement_id ∧ x.start_seconds ≤ y.start_seconds)

instance : DecidableRel lexLe := fun x y =>
  decidable_of_iff
    (x.enregistrement_id < y.enregistrement_id ∨
      (x.enregistrement_id = y.enregistrement_id ∧ x.start_seconds ≤ y.start_seconds))
    Iff.rfl

instance : IsTotal Detection startLe :=
  ⟨fun x y => le_total x.start_seconds y.start_seconds⟩

instance : IsTrans Detection startLe :=
  ⟨fun _ _ _ h1 h2 => le_trans h1 h2⟩

instance : IsTotal Detection lexLe := by
  constructor
  intro x y
  rcases lt_trichotomy x.enregistrement_id y.enregistrement_id with h | h | h
  · exact Or.inl (Or.inl h)
  · rcases le_total x.start_seconds y.start_seconds with h2 | h2
    · exact Or.inl (Or.inr ⟨h, h2⟩)
    · exact Or.inr (Or.inr ⟨h.symm, h2⟩)
  · exact Or.inr (Or.inl h)

instance : IsTrans Detection lexLe := by
  constructor
  rintro x y z (h1 | ⟨h1, h1s⟩) (h2 | ⟨h2, h2s⟩)
  · exact Or.inl (h1.trans h2)
  · exact Or.inl (h2 ▸ h1)
  · exact Or.inl (h1 ▸ h2)
  · exact Or.inr ⟨h1.trans h2, h1s.trans h2s⟩

/-- `SpotDetector._filter_and_group_matches`: group by recording, sort each
group by start, deduplicate by the greedy cluster scan, concatenate, and
sort by `(recording id, start)`.  Python's `sorted`/`list.sort` are stable
and are modelled by `List.insertionSort` with the non-strict key order
(which is stable for it). -/
def filter_and_group_matches (ms : List Detection) (spot_duration : ℚ) :
    List Detection :=
  match ms with
  | [] => []
  | _ :: _ =>
    let filtered := ((byEnreg ms).map
      (fun p => clusterScan spot_duration (List.insertionSort startLe p.2))).flatten
    List.insertionSort lexLe filtered

/-- The inner `for spot_segment in spot_subtitles` loop of
`detect_spot_in_enregistrements` for one recording, extending
`all_detections` in order; the first uncaught exception aborts
everything. -/
def collect_segments (d : SpotDetector) (now : ℕ) (spot_id enreg_id : ℤ)
    (spot_subtitles : List Subtitle) (recording_subtitles : List Subtitle)
    (spot_start_time spot_duration : ℚ) (heure_debut : Str) :
    Except Unit (List Detection) :=
  match spot_subtitles with
  | [] => .ok []
  | seg :: rest =>
    match find_segment_in_recording d now spot_id enreg_id seg
        recording_subtitles (seg.start_seconds - spot_start_time) spot_duration
        heure_debut with
    | .error e => .error e
    | .ok l =>
      match collect_segments d now spot_id enreg_id rest recording_subtitles
          spot_start_time spot_duration heure_debut with
      | .error e => .error e
      | .ok ls => .ok (l ++ ls)

/-- The outer `for enreg_id, enreg_content, heure_debut in enregistrements`
loop: a recording with no parseable segments is skipped. -/
def go_recordings (d : SpotDetector) (now : ℕ) (spot_id : ℤ)
    (spot_subtitles : List Subtitle) (spot_start_time spot_duration : ℚ) :
    List (ℤ × Str × Str) → Except Unit (List Detection)
  | [] => .ok []
  | (enreg_id, enreg_content, heure_debut) :: rest =>
    let recording_subtitles := parse enreg_content
    if recording_subtitles.isEmpty then
      go_recordings d now spot_id spot_subtitles spot_start_time spot_duration rest
    else
      match collect_segments d now spot_id enreg_id spot_subtitles
          recording_subtitles spot_start_time spot_duration heure_debut with
      | .error e => .error e
      | .ok l =>
        match go_recordings d now spot_id spot_subtitles spot_start_time
            spot_duration rest with
        | .error e => .error e
        | .ok ls => .ok (l ++ ls)

/-- `SpotDetector.detect_spot_in_enregistrements`: the public operation.
`now` is the ambient wall clock stamped into `date_detection`; `.error`
models an uncaught exception escaping the call. -/
def detect_spot_in_enregistrements (d : SpotDetector) (now : ℕ) (spot_id : ℤ)
    (spot_content : Str) (enregistrements : List (ℤ × Str × Str)) :
    Except Unit (List Detection) :=
  match parse spot_content with
  | [] => .ok []
  | s0 :: rest =>
    let spot_duration := (List.getLastD rest s0).end_seconds
    let spot_start_time := s0.start_seconds
    match go_recordings d now spot_id (s0 :: rest) spot_start_time spot_duration
        enregistrements with
    | .error e => .error e
    | .ok all_detections =>
      .ok (filter_and_group_matches all_detections spot_duration)

/-! ## Properties of the deduplication pipeline -/

/-- Unfolding of the `min` fold one step at a time. -/
theorem pyMinKey_cons (c x : Detection) (gr : List Detection) :
    pyMinKey c (x :: gr) = pyMinKey (if minKeyLt x c then x else c) gr := rfl

/-- The minimum returned by `min(group, key=...)` is a member of the group. -/
theorem pyMinKey_mem : ∀ (grp : List Detection) (c : Detection),
    pyMinKey c grp ∈ c :: grp
  | [], c => by simp [pyMinKey]
  | x :: gr, c => by
    rw [pyMinKey_cons]
    have ih := pyMinKey_mem gr (if minKeyLt x c then x else c)
    rcases List.mem_cons.1 ih with h | h
    · rw [h]
      split
      · exact List.mem_cons_of_mem _ (List.mem_cons_self _ _)
      · exact List.mem_cons_self _ _
    · exact List.mem_cons_of_mem _ (List.mem_cons_of_mem _ h)

/-- If the seed has the smallest start of the group, the minimum keeps that
start value (the key orders by start first). -/
theorem pyMinKey_start : ∀ (grp : List Detection) (c : Detection),
    (∀ x ∈ grp, c.start_seconds ≤ x.start_seconds) →
    (pyMinKey c grp).start_seconds = c.start_seconds
  | [], c, _ => rfl
  | x :: gr, c, h => by
    rw [pyMinKey_cons]
    by_cases hx : minKeyLt x c
    · have hcx : c.start_seconds ≤ x.start_seconds := h x (List.mem_cons_self _ _)
      have hxc : x.start_seconds = c.start_seconds := by
        rcases hx with hlt | ⟨heq, _⟩
        · exact absurd hlt (not_lt.2 hcx)
        · exact heq
      rw [if_pos hx]
      rw [pyMinKey_start gr x (fun y hy => hxc ▸ h y (List.mem_cons_of_mem _ hy))]
      exact hxc
    · rw [if_neg hx]
      exact pyMinKey_start gr c (fun y hy => h y (List.mem_cons_of_mem _ hy))

/-- Every detection kept by the cluster scan was among the candidates. -/
theorem clusterGo_subset (dur : ℚ) : ∀ (fuel : ℕ) (l : List Detection),
    ∀ x ∈ clusterGo dur fuel l, x ∈ l
  | 0, _, x, hx => by simp [clusterGo] at hx
  | fuel + 1, [], x, hx => by simp [clusterGo] at hx
  | fuel + 1, c :: rest, x, hx => by
    simp only [clusterGo, List.mem_cons] at hx
    rcases hx with hx | hx
    · rcases List.mem_cons.1 (hx ▸ pyMinKey_mem _ c) with h | h
      · exact h ▸ List.mem_cons_self _ _
      · exact List.mem_cons_of_mem _ ((List.takeWhile_sublist _).subset h)
    · exact List.mem_cons_of_mem _
        ((List.dropWhile_sublist _).subset (clusterGo_subset dur fuel _ x hx))

/-- The head of a `dropWhile` result falsifies the predicate. -/
theorem dropWhile_head_false {α : Type} {p : α → Bool} :
    ∀ (l : List α) {x xs}, List.dropWhile p l = x :: xs → p x = false := by
  intro l
  induction l with
  | nil => intro x xs h; cases h
  | cons a t ih =>
    intro x xs h
    rw [List.dropWhile_cons] at h
    by_cases hpa : p a = true
    · exact ih (by rwa [if_pos hpa] at h)
    · rw [if_neg hpa] at h
      cases h
      simpa using hpa

/-- Survivors of the cluster scan on a start-sorted list are start-sorted
and consecutive survivors are at least `dur` apart. -/
theorem cluster_pairwise (dur : ℚ) : ∀ (fuel : ℕ) (l : List Detection),
    List.Sorted startLe l →
    List.Pairwise
      (fun x y => ¬(y.start_seconds - x.start_seconds < dur) ∧
        x.start_seconds ≤ y.start_seconds)
      (clusterGo dur fuel l)
  | 0, _, _ => by simp [clusterGo]
  | fuel + 1, [], _ => by simp [clusterGo]
  | fuel + 1, c :: rest, hs => by
    simp only [clusterGo]
    have hrest : List.Sorted startLe rest := hs.of_cons
    have hcrest : ∀ y ∈ rest, c.start_seconds ≤ y.start_seconds :=
      fun y hy => List.rel_of_sorted_cons hs y hy
    have hrest' : List.Sorted startLe
        (rest.dropWhile (fun m => decide (m.start_seconds - c.start_seconds < dur))) :=
      hrest.sublist (List.dropWhile_sublist _)
    have hbest : (pyMinKey c
        (rest.takeWhile (fun m => decide (m.start_seconds - c.start_seconds < dur)))).start_seconds
        = c.start_seconds :=
      pyMinKey_start _ c (fun x hx => hcrest x ((List.takeWhile_sublist _).subset hx))
    refine List.Pairwise.cons ?_ (cluster_pairwise dur fuel _ hrest')
    intro y hy
    have hy' : y ∈ rest.dropWhile (fun m => decide (m.start_seconds - c.start_seconds < dur)) :=
      clusterGo_subset dur fuel _ y hy
    cases hdrop : rest.dropWhile (fun m => decide (m.start_seconds - c.start_seconds < dur)) with
    | nil => rw [hdrop] at hy'; cases hy'
    | cons h t =>
      have hph : ¬(h.start_seconds - c.start_seconds < dur) := by
        have := dropWhile_head_false rest hdrop
        simpa using this
      have hhy : h.start_seconds ≤ y.start_seconds := by
        rw [hdrop] at hy'
        rcases List.mem_cons.1 hy' with rfl | hy''
        · exact le_refl _
        · have : List.Sorted startLe (h :: t) := hdrop ▸ hrest'
          exact List.rel_of_sorted_cons this y hy''
      constructor
      · rw [hbest]; intro hc; exact hph (by linarith)
      · rw [hbest]
        have hch : c.start_seconds ≤ h.start_seconds :=
          hcrest h ((List.dropWhile_sublist _).subset (hdrop ▸ List.mem_cons_self h t))
        linarith

/-- On a list whose consecutive elements are already at least `dur` apart,
the cluster scan is the identity (given adequate fuel). -/
theorem cluster_id (dur : ℚ) : ∀ (fuel : ℕ) (l : List Detection),
    l.length ≤ fuel →
    List.Pairwise (fun x y => ¬(y.start_seconds - x.start_seconds < dur)) l →
    clusterGo dur fuel l = l
  | 0, l, hlen, _ => by
    rw [List.length_eq_zero.1 (Nat.le_zero.1 hlen)]
    rfl
  | fuel + 1, [], _, _ => rfl
  | fuel + 1, c :: rest, hlen, hp => by
    have hc : ∀ y ∈ rest, ¬(y.start_seconds - c.start_seconds < dur) :=
      fun y hy => List.rel_of_pairwise_cons hp hy
    have htake : rest.takeWhile (fun m => decide (m.start_seconds - c.start_seconds < dur)) = [] := by
      cases rest with
      | nil => rfl
      | cons h t =>
        rw [List.takeWhile_cons, if_neg]
        simp only [decide_eq_true_eq]
        exact hc h (List.mem_cons_self _ _)
    have hdrop : rest.dropWhile (fun m => decide (m.start_seconds - c.start_seconds < dur)) = rest := by
      cases rest with
      | nil => rfl
      | cons h t =>
        rw [List.dropWhile_cons, if_neg]
        simp only [decide_eq_true_eq]
        exact hc h (List.mem_cons_self _ _)
    simp only [clusterGo, htake, hdrop]
    rw [show pyMinKey c [] = c from rfl]
    rw [cluster_id dur fuel rest (by simpa using Nat.le_of_succ_le_succ hlen) hp.of_cons]

/-- Every bucket of the dict grouping is a sublist of the input. -/
theorem byEnregGo_snd_sublist : ∀ (n : ℕ) (l : List Detection) (p : ℤ × List Detection),
    p ∈ byEnregGo n l → p.2.Sublist l
  | 0, _, _, hp => by simp [byEnregGo] at hp
  | _ + 1, [], _, hp => by simp [byEnregGo] at hp
  | n + 1, m :: rest, p, hp => by
    simp only [byEnregGo, List.mem_cons] at hp
    rcases hp with rfl | hp
    · exact (List.filter_sublist rest).cons_cons m
    · exact ((byEnregGo_snd_sublist n _ p hp).trans (List.filter_sublist rest)).cons m

/-- Every element of a bucket carries that bucket's recording id. -/
theorem byEnregGo_enreg : ∀ (n : ℕ) (l : List Detection) (p : ℤ × List Detection),
    p ∈ byEnregGo n l → ∀ x ∈ p.2, x.enregistrement_id = p.1
  | 0, _, _, hp => by simp [byEnregGo] at hp
  | _ + 1, [], _, hp => by simp [byEnregGo] at hp
  | n + 1, m :: rest, p, hp => by
    simp only [byEnregGo, List.mem_cons] at hp
    rcases hp with rfl | hp
    · intro x hx
      rcases List.mem_cons.1 hx with rfl | hx
      · rfl
      · have := (List.mem_filter.1 hx).2
        simpa using this
    · exact byEnregGo_enreg n _ p hp

/-- Every bucket key is the recording id of some input element. -/
theorem byEnregGo_key_exists : ∀ (n : ℕ) (l : List Detection) (p : ℤ × List Detection),
    p ∈ byEnregGo n l → ∃ x ∈ l, x.enregistrement_id = p.1
  | 0, _, _, hp => by simp [byEnregGo] at hp
  | _ + 1, [], _, hp => by simp [byEnregGo] at hp
  | n + 1, m :: rest, p, hp => by
    simp only [byEnregGo, List.mem_cons] at hp
    rcases hp with rfl | hp
    · exact ⟨m, List.mem_cons_self _ _, rfl⟩
    · obtain ⟨x, hx, hxe⟩ := byEnregGo_key_exists n _ p hp
      exact ⟨x, List.mem_cons_of_mem _ ((List.filter_sublist rest).subset hx), hxe⟩

/-- Distinct buckets of the dict grouping have distinct keys. -/
theorem byEnregGo_keys_ne : ∀ (n : ℕ) (l : List Detection),
    List.Pairwise (fun p q => p.1 ≠ q.1) (byEnregGo n l)
  | 0, _ => by simp [byEnregGo]
  | _ + 1, [] => by simp [byEnregGo]
  | n + 1, m :: rest => by
    simp only [byEnregGo]
    refine List.Pairwise.cons ?_ (byEnregGo_keys_ne n _)
    intro q hq
    obtain ⟨x, hx, hxe⟩ := byEnregGo_key_exists n _ q hq
    have : ¬(x.enregistrement_id == m.enregistrement_id) = true := by
      have := (List.mem_filter.1 hx).2
      simpa using this
    intro hkey
    exact this (by rw [show x.enregistrement_id = m.enregistrement_id from hxe.trans hkey.symm]; simp)

/-- The clustering window relation of the spec: two detections of the same
recording are never both kept when their starts are within `dur` of each
other. -/
def R (dur : ℚ) (x y : Detection) : Prop :=
  x.enregistrement_id = y.enregistrement_id →
    ¬ |x.start_seconds - y.start_seconds| < dur

theorem R_symm (dur : ℚ) : ∀ {x y : Detection}, R dur x y → R dur y x := by
  intro x y h he
  rw [abs_sub_comm]
  exact h he.symm

/-- Deduplication only ever returns candidates it was given. -/
theorem fg_subset (ms : List Detection) (dur : ℚ) :
    ∀ x ∈ filter_and_group_matches ms dur, x ∈ ms := by
  intro x hx
  match ms with
  | [] => simp [filter_and_group_matches] at hx
  | m :: rest =>
    simp only [filter_and_group_matches] at hx
    have hx2 := (List.mem_insertionSort lexLe).1 hx
    obtain ⟨l', hl', hxl'⟩ := List.mem_flatten.1 hx2
    obtain ⟨p, hp, rfl⟩ := List.mem_map.1 hl'
    have hx3 : x ∈ List.insertionSort startLe p.2 :=
      clusterGo_subset dur _ _ x hxl'
    have hx4 : x ∈ p.2 := (List.mem_insertionSort startLe).1 hx3
    exact (byEnregGo_snd_sublist _ _ p hp).subset hx4

/-- The deduplicated list is sorted by `(recording id, start)`. -/
theorem fg_sorted (ms : List Detection) (dur : ℚ) :
    List.Sorted lexLe (filter_and_group_matches ms dur) := by
  match ms with
  | [] => simp [filter_and_group_matches]
  | m :: rest =>
    simp only [filter_and_group_matches]
    exact List.sorted_insertionSort lexLe _

/-- Core clustering property: in the output of deduplication, no two
detections of the same recording have starts within `spot_duration` of one
another. -/
theorem fg_pairwise (ms : List Detection) (dur : ℚ) :
    List.Pairwise (R dur) (filter_and_group_matches ms dur) := by
  match ms with
  | [] => simp [filter_and_group_matches]
  | m :: rest =>
    simp only [filter_and_group_matches]
    have hperm := List.perm_insertionSort lexLe
      (((byEnreg (m :: rest)).map
        (fun p => clusterScan dur (List.insertionSort startLe p.2))).flatten)
    refine (hperm.pairwise_iff (fun h => R_symm dur h)).2 ?_
    refine List.pairwise_flatten.2 ⟨?_, ?_⟩
    · intro l' hl'
      obtain ⟨p, _, rfl⟩ := List.mem_map.1 hl'
      have hpw := cluster_pairwise dur (List.insertionSort startLe p.2).length
        (List.insertionSort startLe p.2) (List.sorted_insertionSort startLe _)
      refine hpw.imp ?_
      intro a b hab _
      have hnn : (0 : ℚ) ≤ b.start_seconds - a.start_seconds := by linarith [hab.2]
      rw [abs_sub_comm, abs_of_nonneg hnn]
      exact hab.1
    · refine (List.pairwise_map.2 ?_)
      refine (byEnregGo_keys_ne _ _).imp_of_mem ?_
      intro p q hpmem hqmem hpq x hx y hy
      have hxp : x ∈ p.2 :=
        (List.mem_insertionSort startLe).1 (clusterGo_subset dur _ _ x hx)
      have hyq : y ∈ q.2 :=
        (List.mem_insertionSort startLe).1 (clusterGo_subset dur _ _ y hy)
      intro he
      exact absurd (by
        rw [← byEnregGo_enreg _ _ p hpmem x hxp,
          ← byEnregGo_enreg _ _ q hqmem y hyq]
        exact he) hpq

/-- Sorting by `(recording id, start)` sorts by recording id in particular. -/
theorem enreg_pairwise_of_sorted {l : List Detection} (hs : List.Sorted lexLe l) :
    List.Pairwise (fun x y : Detection =>
      x.enregistrement_id ≤ y.enregistrement_id) l := by
  refine hs.imp ?_
  rintro a b (h | ⟨h, _⟩)
  · exact le_of_lt h
  · exact le_of_eq h

/-- In a list sorted by recording id, the elements sharing the head's id form
a prefix: filtering for them is `takeWhile`, filtering them out is
`dropWhile`. -/
theorem filter_eq_takeWhile_of_sorted :
    ∀ {rest : List Detection} (m : Detection),
    List.Pairwise (fun x y : Detection =>
      x.enregistrement_id ≤ y.enregistrement_id) (m :: rest) →
    rest.filter (fun x => x.enregistrement_id == m.enregistrement_id) =
      rest.takeWhile (fun x => x.enregistrement_id == m.enregistrement_id) ∧
    rest.filter (fun x => !(x.enregistrement_id == m.enregistrement_id)) =
      rest.dropWhile (fun x => x.enregistrement_id == m.enregistrement_id) := by
  intro rest
  induction rest with
  | nil => intro m _; exact ⟨rfl, rfl⟩
  | cons h t ih =>
    intro m hp
    by_cases he : h.enregistrement_id = m.enregistrement_id
    · have hmt : List.Pairwise (fun x y : Detection =>
          x.enregistrement_id ≤ y.enregistrement_id) (m :: t) := by
        refine List.Pairwise.sublist ?_ hp
        exact List.Sublist.cons_cons m (List.sublist_cons_self h t)
      obtain ⟨ih1, ih2⟩ := ih m hmt
      constructor
      · rw [List.filter_cons, List.takeWhile_cons, if_pos (by simp [he]), if_pos (by simp [he])]
        rw [ih1]
      · rw [List.filter_cons, List.dropWhile_cons, if_neg (by simp [he]), if_pos (by simp [he])]
        exact ih2
    · have hlt : m.enregistrement_id < h.enregistrement_id := by
        have hmh := List.rel_of_pairwise_cons hp (List.mem_cons_self h t)
        exact lt_of_le_of_ne hmh (fun hc => he hc.symm)
      have htgt : ∀ x ∈ t, ¬(x.enregistrement_id = m.enregistrement_id) := by
        intro x hx hc
        have hhx := List.rel_of_pairwise_cons (hp.of_cons) hx
        exact absurd (hc ▸ hhx) (not_le.2 hlt)
      constructor
      · rw [List.filter_cons, List.takeWhile_cons, if_neg (by simp [he]), if_neg (by simp [he])]
        rw [List.filter_eq_nil_iff.2 (by intro x hx; simpa using htgt x hx)]
      · rw [List.filter_cons, List.dropWhile_cons, if_pos (by simp [he]), if_neg (by simp [he])]
        rw [List.filter_eq_self.2 (by intro x hx; simpa using htgt x hx)]

/-- On a list sorted by recording id, concatenating the dict buckets in key
order reproduces the list. -/
theorem join_byEnreg : ∀ (n : ℕ) (l : List Detection), l.length ≤ n →
    List.Pairwise (fun x y : Detection =>
      x.enregistrement_id ≤ y.enregistrement_id) l →
    ((byEnregGo n l).map Prod.snd).flatten = l
  | 0, l, hlen, _ => by
    rw [List.length_eq_zero.1 (Nat.le_zero.1 hlen)]
    rfl
  | n + 1, [], _, _ => rfl
  | n + 1, m :: rest, hlen, hp => by
    obtain ⟨h1, h2⟩ := filter_eq_takeWhile_of_sorted m hp
    simp only [byEnregGo, List.map_cons, List.flatten_cons]
    rw [h1, h2]
    have hsub : (rest.dropWhile
        (fun x => x.enregistrement_id == m.enregistrement_id)).Sublist rest :=
      List.dropWhile_sublist _
    rw [join_byEnreg n _ (le_trans (Nat.le_of_lt_succ (Nat.lt_succ_of_le hsub.length_le)) (by
        simpa using Nat.le_of_succ_le_succ hlen)) (hp.of_cons.sublist hsub)]
    rw [List.cons_append, List.takeWhile_append_dropWhile]

/-- On an already-deduplicated input (sorted, with the clustering-window
invariant) each bucket is left unchanged by sorting and clustering. -/
theorem bucket_cluster_id {ms : List Detection} {dur : ℚ}
    (hs : List.Sorted lexLe ms) (hp : List.Pairwise (R dur) ms) :
    ∀ p ∈ byEnreg ms, clusterScan dur (List.insertionSort startLe p.2) = p.2 := by
  intro p hpmem
  have hsub := byEnregGo_snd_sublist _ _ p hpmem
  have henr := byEnregGo_enreg _ _ p hpmem
  have hsorted2 : List.Sorted startLe p.2 := by
    refine ((hs.sublist hsub).and (hp.sublist hsub)).imp_of_mem ?_
    intro a b ha hb hab
    rcases hab.1 with h | ⟨_, h⟩
    · exact absurd (henr b hb ▸ henr a ha ▸ h) (lt_irrefl _)
    · exact h
  rw [(hsorted2.insertionSort_eq)]
  have hgap : List.Pairwise
      (fun x y : Detection => ¬(y.start_seconds - x.start_seconds < dur)) p.2 := by
    refine ((hsorted2.and (hp.sublist hsub)).imp_of_mem ?_)
    intro a b ha hb hab hlt
    have habs : ¬ |a.start_seconds - b.start_seconds| < dur :=
      hab.2 (by rw [henr a ha, henr b hb])
    apply habs
    have h1 : a.start_seconds ≤ b.start_seconds := hab.1
    rw [abs_sub_comm]
    rw [abs_of_nonneg (by linarith : (0:ℚ) ≤ b.start_seconds - a.start_seconds)]
    exact hlt
  exact cluster_id dur p.2.length p.2 (le_refl _) hgap

/-- Deduplication is the identity on lists satisfying its own output
invariant. -/
theorem fg_id {ms : List Detection} {dur : ℚ}
    (hs : List.Sorted lexLe ms) (hp : List.Pairwise (R dur) ms) :
    filter_and_group_matches ms dur = ms := by
  match ms with
  | [] => rfl
  | m :: rest =>
    simp only [filter_and_group_matches]
    rw [List.map_congr_left (bucket_cluster_id hs hp)]
    unfold byEnreg
    rw [join_byEnreg (m :: rest).length (m :: rest) (le_refl _) (enreg_pairwise_of_sorted hs)]
    exact hs.insertionSort_eq

/-! ## Bounds for the `SequenceMatcher` embedding -/

/-- Invariant of a best-block triple `(besti, bestj, bestsize)`: the block
lies inside `a[alo:ahi]` and `b[blo:bhi]`. -/
def BInv (alo ahi blo bhi : ℕ) (t : ℕ × ℕ × ℕ) : Prop :=
  alo ≤ t.1 ∧ blo ≤ t.2.1 ∧ t.1 + t.2.2 ≤ ahi ∧ t.2.1 + t.2.2 ≤ bhi

theorem lookupRow_cases (row : List (ℕ × ℕ)) (j : ℕ) :
    lookupRow row j = 0 ∨ ∃ q ∈ row, q.1 = j ∧ lookupRow row j = q.2 := by
  unfold lookupRow
  cases hf : row.find? (fun p => p.1 == j) with
  | none => left; simp
  | some q =>
    right
    refine ⟨q, List.mem_of_find?_eq_some hf, ?_, by simp⟩
    have := List.find?_some hf
    simpa using this

theorem dpInner_inv {alo ahi blo bhi i : ℕ} {prev : List (ℕ × ℕ)}
    (hprev : ∀ q ∈ prev, q.2 + alo ≤ i ∧ q.2 + blo ≤ q.1 + 1)
    (hi1 : alo ≤ i) (hi2 : i < ahi) :
    ∀ (js : List ℕ) (new : List (ℕ × ℕ)) (best : ℕ × ℕ × ℕ),
    (∀ j ∈ js, blo ≤ j ∧ j < bhi) →
    (∀ q ∈ new, q.2 + alo ≤ i + 1 ∧ q.2 + blo ≤ q.1 + 1) →
    BInv alo ahi blo bhi best →
    (∀ q ∈ (dpInner i prev js new best).1,
      q.2 + alo ≤ i + 1 ∧ q.2 + blo ≤ q.1 + 1) ∧
    BInv alo ahi blo bhi (dpInner i prev js new best).2
  | [], new, best, _, hnew, hbest => ⟨hnew, hbest⟩
  | j :: js, new, (bi, bj, bs), hjs, hnew, hbest => by
    have hj := hjs j (List.mem_cons_self _ _)
    obtain ⟨k, hkdef⟩ : ∃ k, (if j = 0 then 0 else lookupRow prev (j - 1)) + 1 = k :=
      ⟨_, rfl⟩
    have hk : k + alo ≤ i + 1 ∧ k + blo ≤ j + 1 := by
      rw [← hkdef]
      by_cases hj0 : j = 0
      · rw [if_pos hj0]
        subst hj0
        omega
      · rw [if_neg hj0]
        rcases lookupRow_cases prev (j - 1) with h0 | ⟨q, hq, hq1, hq2⟩
        · rw [h0]; omega
        · rw [hq2]
          have := hprev q hq
          omega
    have hstep : dpInner i prev (j :: js) new (bi, bj, bs) =
        dpInner i prev js (new ++ [(j, k)])
          (if bs < k then (i + 1 - k, j + 1 - k, k) else (bi, bj, bs)) := by
      simp only [dpInner, hkdef]
    rw [hstep]
    refine dpInner_inv hprev hi1 hi2 js _ _
      (fun j' hj' => hjs j' (List.mem_cons_of_mem _ hj')) ?_ ?_
    · intro q hq
      rcases List.mem_append.1 hq with hq | hq
      · exact hnew q hq
      · rcases List.mem_singleton.1 hq with rfl
        exact hk
    · by_cases hbs : bs < k
      · rw [if_pos hbs]
        refine ⟨?_, ?_, ?_, ?_⟩ <;> dsimp only <;> omega
      · rw [if_neg hbs]
        exact hbest

theorem dpOuter_inv {a : Str} {b2j : Char → List ℕ} {alo ahi blo bhi : ℕ} :
    ∀ (is : List ℕ) (prev : List (ℕ × ℕ)) (best : ℕ × ℕ × ℕ),
    (∀ i ∈ is, alo ≤ i ∧ i < ahi) →
    List.Pairwise (· < ·) is →
    (∀ q ∈ prev, (∀ i ∈ is, q.2 + alo ≤ i) ∧ q.2 + blo ≤ q.1 + 1) →
    BInv alo ahi blo bhi best →
    BInv alo ahi blo bhi (dpOuter a b2j blo bhi is prev best)
  | [], _, best, _, _, _, hbest => hbest
  | i :: is, prev, best, his, hpw, hprev, hbest => by
    have hi := his i (List.mem_cons_self _ _)
    have hjs : ∀ j ∈ (b2j (charAt a i)).filter
        (fun j => decide (blo ≤ j) && decide (j < bhi)), blo ≤ j ∧ j < bhi := by
      intro j hj
      have := (List.mem_filter.1 hj).2
      simp only [Bool.and_eq_true, decide_eq_true_eq] at this
      exact this
    have hrow := dpInner_inv
      (fun q hq => ⟨(hprev q hq).1 i (List.mem_cons_self _ _), (hprev q hq).2⟩)
      hi.1 hi.2 _ [] best hjs (by simp) hbest
    simp only [dpOuter]
    refine dpOuter_inv is _ _
      (fun i' hi' => his i' (List.mem_cons_of_mem _ hi')) hpw.of_cons ?_ hrow.2
    intro q hq
    refine ⟨?_, (hrow.1 q hq).2⟩
    intro i' hi'
    have hlt := List.rel_of_pairwise_cons hpw hi'
    have := (hrow.1 q hq).1
    omega

theorem extendBack_inv {a b : Str} {alo ahi blo bhi : ℕ} :
    ∀ (fuel : ℕ) (st : ℕ × ℕ × ℕ), BInv alo ahi blo bhi st →
    BInv alo ahi blo bhi (extendBack a b alo blo fuel st)
  | 0, _, hst => hst
  | fuel + 1, (bi, bj, bs), hst => by
    simp only [extendBack]
    split
    · rename_i hcond
      refine extendBack_inv fuel _ ?_
      obtain ⟨h1, h2, h3, h4⟩ := hst
      obtain ⟨hc1, hc2, _⟩ := hcond
      refine ⟨?_, ?_, ?_, ?_⟩ <;> dsimp only at * <;> omega
    · exact hst

theorem extendFwd_inv {a b : Str} {alo ahi blo bhi : ℕ} :
    ∀ (fuel : ℕ) (st : ℕ × ℕ × ℕ), BInv alo ahi blo bhi st →
    BInv alo ahi blo bhi (extendFwd a b ahi bhi fuel st)
  | 0, _, hst => hst
  | fuel + 1, (bi, bj, bs), hst => by
    simp only [extendFwd]
    split
    · rename_i hcond
      refine extendFwd_inv fuel _ ?_
      obtain ⟨h1, h2, h3, h4⟩ := hst
      obtain ⟨hc1, hc2, _⟩ := hcond
      refine ⟨?_, ?_, ?_, ?_⟩ <;> dsimp only at * <;> omega
    · exact hst

/-- The block found by `find_longest_match` lies inside the given ranges. -/
theorem find_longest_match_bounds (a b : Str) (b2j : Char → List ℕ)
    (alo ahi blo bhi : ℕ) (h1 : alo ≤ ahi) (h2 : blo ≤ bhi) :
    BInv alo ahi blo bhi (find_longest_match a b b2j alo ahi blo bhi) := by
  unfold find_longest_match
  refine extendFwd_inv _ _ (extendBack_inv _ _ (dpOuter_inv _ _ _ ?_ ?_ ?_ ?_))
  · intro i hi
    obtain ⟨k, hk, rfl⟩ := List.mem_range'.1 hi
    omega
  · exact List.pairwise_lt_range' _ _
  · simp
  · exact ⟨le_refl _, le_refl _, by simpa using h1, by simpa using h2⟩

/-- The total matched size is at most each operand's range length. -/
theorem matchingSizes_le (a b : Str) (b2j : Char → List ℕ) :
    ∀ (fuel alo ahi blo bhi : ℕ), alo ≤ ahi → blo ≤ bhi →
    matchingSizes fuel a b b2j alo ahi blo bhi ≤ ahi - alo ∧
    matchingSizes fuel a b b2j alo ahi blo bhi ≤ bhi - blo
  | 0, alo, ahi, blo, bhi, _, _ => by simp [matchingSizes]
  | fuel + 1, alo, ahi, blo, bhi, h1, h2 => by
    simp only [matchingSizes]
    split
    · omega
    · have hb := find_longest_match_bounds a b b2j alo ahi blo bhi h1 h2
      obtain ⟨hb1, hb2, hb3, hb4⟩ := hb
      have hL := matchingSizes_le a b b2j fuel alo
        (find_longest_match a b b2j alo ahi blo bhi).1 blo
        (find_longest_match a b b2j alo ahi blo bhi).2.1 hb1 hb2
      have hR := matchingSizes_le a b b2j fuel
        ((find_longest_match a b b2j alo ahi blo bhi).1 +
          (find_longest_match a b b2j alo ahi blo bhi).2.2) ahi
        ((find_longest_match a b b2j alo ahi blo bhi).2.1 +
          (find_longest_match a b b2j alo ahi blo bhi).2.2) bhi (by omega) (by omega)
      omega

theorem totalMatches_le (a b : Str) :
    totalMatches a b ≤ a.length ∧ totalMatches a b ≤ b.length := by
  have := matchingSizes_le a b (b2jOf b) (a.length + 1) 0 a.length 0 b.length
    (Nat.zero_le _) (Nat.zero_le _)
  simpa [totalMatches] using this

/-- `SequenceMatcher.ratio()` lies in `[0, 1]`. -/
theorem ratioSM_bounds (a b : Str) : 0 ≤ ratioSM a b ∧ ratioSM a b ≤ 1 := by
  have hdef : ratioSM a b =
      if a.length + b.length = 0 then (1 : ℚ)
      else 2 * (totalMatches a b : ℚ) / ((a.length + b.length : ℕ) : ℚ) := rfl
  rw [hdef]
  split_ifs with htot
  · norm_num
  · have hM := totalMatches_le a b
    have htotpos : 0 < a.length + b.length := Nat.pos_of_ne_zero htot
    constructor
    · positivity
    · rw [div_le_one (by exact_mod_cast htotpos)]
      have h2M : 2 * totalMatches a b ≤ a.length + b.length := by omega
      exact_mod_cast h2M

/-- `similarity_ratio` lies in `[0, 100]`. -/
theorem similarity_ratio_bounds (s1 s2 : Str) :
    0 ≤ similarity_ratio s1 s2 ∧ similarity_ratio s1 s2 ≤ 100 := by
  have := ratioSM_bounds (pyLower s1) (pyLower s2)
  unfold similarity_ratio
  constructor
  · nlinarith [this.1]
  · nlinarith [this.2]

/-- The sliding-window fold keeps the best confidence inside `[0, 100]`. -/
theorem foldl_conf_bounds {β : Type} (f : β → Option Str) (g : β → ℚ)
    (hg : ∀ x, 0 ≤ g x ∧ g x ≤ 100) :
    ∀ (l : List β) (acc : Option Str × ℚ), 0 ≤ acc.2 → acc.2 ≤ 100 →
    0 ≤ (l.foldl (fun best i => if best.2 < g i then (f i, g i) else best) acc).2 ∧
    (l.foldl (fun best i => if best.2 < g i then (f i, g i) else best) acc).2 ≤ 100
  | [], acc, h0, h100 => ⟨h0, h100⟩
  | x :: l, acc, h0, h100 => by
    simp only [List.foldl_cons]
    split
    · exact foldl_conf_bounds f g hg l _ (hg x).1 (hg x).2
    · exact foldl_conf_bounds f g hg l _ h0 h100

/-- The sliding-window scan of `find_in_text`, named for reasoning. -/
def slideBest (needle_lower haystack_lower : Str) : Option Str × ℚ :=
  (List.range (haystack_lower.length + 1 - needle_lower.length)).foldl
    (fun best i =>
      let window := (haystack_lower.drop i).take needle_lower.length
      let sim := similarity_ratio needle_lower window
      if best.2 < sim then (some window, sim) else best)
    ((none : Option Str), (0 : ℚ))

/-- Unfolding equation of `find_in_text` in terms of `slideBest`. -/
theorem find_in_text_eq (m : FuzzyMatcher) (needle haystack : Str) :
    FuzzyMatcher.find_in_text m needle haystack =
      if pyStrip (pyLower needle) <:+: pyStrip (pyLower haystack) then (some needle, 100)
      else if m.threshold ≤
          (slideBest (pyStrip (pyLower needle)) (pyStrip (pyLower haystack))).2 then
        slideBest (pyStrip (pyLower needle)) (pyStrip (pyLower haystack))
      else (none, 0) := rfl

theorem slideBest_bounds (nl hl : Str) :
    0 ≤ (slideBest nl hl).2 ∧ (slideBest nl hl).2 ≤ 100 :=
  foldl_conf_bounds (fun i => some ((hl.drop i).take nl.length))
    (fun i => similarity_ratio nl ((hl.drop i).take nl.length))
    (fun _ => similarity_ratio_bounds _ _) _ _ (le_refl 0) (by norm_num)

/-- The confidence returned by `find_in_text` lies in `[0, 100]`. -/
theorem find_in_text_conf_bounds (m : FuzzyMatcher) (needle haystack : Str) :
    0 ≤ (FuzzyMatcher.find_in_text m needle haystack).2 ∧
    (FuzzyMatcher.find_in_text m needle haystack).2 ≤ 100 := by
  rw [find_in_text_eq]
  split_ifs with h1 h2
  · norm_num
  · exact slideBest_bounds _ _
  · norm_num

/-! ## Shape of the detections built by the detector -/

/-- The per-detection contract of the spec: the match kind is `exact` exactly
for confidence `100` and `fuzzy` otherwise, and confidence lies in
`[0, 100]`. -/
def DetOK (x : Detection) : Prop :=
  (x.match_type = "exact".toList ↔ x.confidence = 100) ∧
  (¬ x.confidence = 100 → x.match_type = "fuzzy".toList) ∧
  0 ≤ x.confidence ∧ x.confidence ≤ 100

theorem find_segment_DetOK {d : SpotDetector} {now : ℕ} {sid eid : ℤ}
    {seg : Subtitle} {recs : List Subtitle} {pos dur : ℚ} {hd : Str}
    {l : List Detection}
    (hl : find_segment_in_recording d now sid eid seg recs pos dur hd = .ok l) :
    ∀ x ∈ l, DetOK x := by
  unfold find_segment_in_recording at hl
  cases htime : SpotDetector.time_to_seconds hd with
  | error e => rw [htime] at hl; cases hl
  | ok base =>
    rw [htime] at hl
    cases hl
    intro x hx
    obtain ⟨rs, hrs, hfx⟩ := List.mem_filterMap.1 hx
    dsimp only at hfx
    split at hfx
    · cases hfx
      have hbounds := find_in_text_conf_bounds d.matcher seg.text rs.text
      refine ⟨?_, ?_, hbounds.1, hbounds.2⟩
      · dsimp only
        by_cases hc : (FuzzyMatcher.find_in_text d.matcher seg.text rs.text).2 = 100
        · rw [if_pos hc]
          exact ⟨fun _ => hc, fun _ => rfl⟩
        · rw [if_neg hc]
          constructor
          · intro he
            exact absurd he (by decide)
          · intro h100
            exact absurd h100 hc
      · dsimp only
        intro hc
        rw [if_neg hc]
    · cases hfx

theorem collect_segments_DetOK {d : SpotDetector} {now : ℕ} {sid eid : ℤ}
    {recs : List Subtitle} {st dur : ℚ} {hd : Str} :
    ∀ (ss : List Subtitle) {l : List Detection},
    collect_segments d now sid eid ss recs st dur hd = .ok l → ∀ x ∈ l, DetOK x
  | [], l, h => by
    cases h
    intro x hx
    cases hx
  | seg :: rest, l, h => by
    unfold collect_segments at h
    split at h
    · cases h
    · rename_i l1 hfs
      split at h
      · cases h
      · rename_i l2 hcs
        cases h
        intro x hx
        rcases List.mem_append.1 hx with hx | hx
        · exact find_segment_DetOK hfs x hx
        · exact collect_segments_DetOK rest hcs x hx

theorem go_recordings_DetOK {d : SpotDetector} {now : ℕ} {sid : ℤ}
    {ss : List Subtitle} {st dur : ℚ} :
    ∀ (rl : List (ℤ × Str × Str)) {l : List Detection},
    go_recordings d now sid ss st dur rl = .ok l → ∀ x ∈ l, DetOK x
  | [], l, h => by
    cases h
    intro x hx
    cases hx
  | (eid, content, hd) :: rest, l, h => by
    unfold go_recordings at h
    dsimp only at h
    by_cases hemp : (parse content).isEmpty
    · rw [if_pos hemp] at h
      exact go_recordings_DetOK rest h
    · rw [if_neg hemp] at h
      cases hcs : collect_segments d now sid eid ss (parse content) st dur hd with
      | error e => rw [hcs] at h; cases h
      | ok l1 =>
        rw [hcs] at h
        cases hgo : go_recordings d now sid ss st dur rest with
        | error e => rw [hgo] at h; cases h
        | ok ls =>
          rw [hgo] at h
          cases h
          intro x hx
          rcases List.mem_append.1 hx with hx | hx
          · exact collect_segments_DetOK _ hcs x hx
          · exact go_recordings_DetOK rest hgo x hx

/-- Every detection returned by the public operation satisfies the
per-detection contract. -/
theorem detect_DetOK {d : SpotDetector} {now : ℕ} {sid : ℤ} {sc : Str}
    {recs : List (ℤ × Str × Str)} {ds : List Detection}
    (h : detect_spot_in_enregistrements d now sid sc recs = .ok ds) :
    ∀ x ∈ ds, DetOK x := by
  unfold detect_spot_in_enregistrements at h
  split at h
  · cases h
    intro x hx
    cases hx
  · rename_i ssAll s0 rest0 hparse
    dsimp only at h
    cases hgo : go_recordings d now sid (s0 :: rest0) s0.start_seconds
        (List.getLastD rest0 s0).end_seconds recs with
    | error e => rw [hgo] at h; cases h
    | ok all =>
      rw [hgo] at h
      cases h
      intro x hx
      exact go_recordings_DetOK recs hgo x (fg_subset _ _ x hx)

/-! ## Totality of the detector under well-formed day anchors -/

/-- A day-anchor string accepted by `SpotDetector._time_to_seconds`. -/
def anchorOk (hd : Str) : Prop :=
  ∃ q, SpotDetector.time_to_seconds hd = .ok q

theorem find_segment_total {d : SpotDetector} {now : ℕ} {sid eid : ℤ}
    {seg : Subtitle} {recs : List Subtitle} {pos dur : ℚ} {hd : Str}
    (hb : anchorOk hd) :
    ∃ l, find_segment_in_recording d now sid eid seg recs pos dur hd = .ok l := by
  obtain ⟨q, hq⟩ := hb
  unfold find_segment_in_recording
  rw [hq]
  exact ⟨_, rfl⟩

theorem collect_segments_total {d : SpotDetector} {now : ℕ} {sid eid : ℤ}
    {recs : List Subtitle} {st dur : ℚ} {hd : Str} (hb : anchorOk hd) :
    ∀ (ss : List Subtitle),
    ∃ l, collect_segments d now sid eid ss recs st dur hd = .ok l
  | [] => ⟨[], rfl⟩
  | seg :: rest => by
    obtain ⟨l1, h1⟩ := @find_segment_total d now sid eid seg recs
      (seg.start_seconds - st) dur hd hb
    obtain ⟨l2, h2⟩ := collect_segments_total hb rest
    refine ⟨l1 ++ l2, ?_⟩
    unfold collect_segments
    rw [h1, h2]

theorem go_recordings_total {d : SpotDetector} {now : ℕ} {sid : ℤ}
    {ss : List Subtitle} {st dur : ℚ} :
    ∀ (rl : List (ℤ × Str × Str)), (∀ e ∈ rl, anchorOk e.2.2) →
    ∃ l, go_recordings d now sid ss st dur rl = .ok l
  | [], _ => ⟨[], rfl⟩
  | (eid, content, hd) :: rest, hall => by
    obtain ⟨l2, h2⟩ := go_recordings_total rest
      (fun e he => hall e (List.mem_cons_of_mem _ he))
    by_cases hemp : (parse content).isEmpty
    · refine ⟨l2, ?_⟩
      unfold go_recordings
      dsimp only
      rw [if_pos hemp, h2]
    · obtain ⟨l1, h1⟩ := collect_segments_total
        (hall (eid, content, hd) (List.mem_cons_self _ _)) ss
      refine ⟨l1 ++ l2, ?_⟩
      unfold go_recordings
      dsimp only
      rw [if_neg hemp, h1, h2]

/-- With every processed day anchor well-formed, the detector is total. -/
theorem detect_total {d : SpotDetector} {now : ℕ} {sid : ℤ} {sc : Str}
    {recs : List (ℤ × Str × Str)} (hall : ∀ e ∈ recs, anchorOk e.2.2) :
    ∃ ds, detect_spot_in_enregistrements d now sid sc recs = .ok ds := by
  unfold detect_spot_in_enregistrements
  cases hp : parse sc with
  | nil => exact ⟨[], rfl⟩
  | cons s0 rest =>
    dsimp only
    obtain ⟨all, hgo⟩ := @go_recordings_total d now sid (s0 :: rest)
      s0.start_seconds (List.getLastD rest s0).end_seconds recs hall
    rw [hgo]
    exact ⟨_, rfl⟩

/-! ## The wall clock only reaches the `date_detection` field -/

/-- Re-stamp a detection's creation time, keeping every other field. -/
def setDate (t : ℕ) (x : Detection) : Detection :=
  ⟨x.id, x.spot_id, x.enregistrement_id, x.start_time, x.end_time,
    x.start_seconds, x.end_seconds, x.confidence, x.match_type, t,
    x.spot_nom, x.enreg_nom, x.enreg_chaine_id, x.enreg_chaine_nom, x.enreg_date⟩

theorem filter_setDate (t : ℕ) (e : ℤ) : ∀ (l : List Detection),
    (l.map (setDate t)).filter (fun x => x.enregistrement_id == e) =
      (l.filter (fun x => x.enregistrement_id == e)).map (setDate t) ∧
    (l.map (setDate t)).filter (fun x => !(x.enregistrement_id == e)) =
      (l.filter (fun x => !(x.enregistrement_id == e))).map (setDate t)
  | [] => ⟨rfl, rfl⟩
  | x :: l => by
    obtain ⟨ih1, ih2⟩ := filter_setDate t e l
    constructor <;>
    · simp only [List.map_cons, List.filter_cons]
      by_cases he : x.enregistrement_id = e
      · simp [setDate, he, ih1, ih2]
      · simp [setDate, he, ih1, ih2]

theorem byEnregGo_setDate (t : ℕ) : ∀ (n : ℕ) (l : List Detection),
    byEnregGo n (l.map (setDate t)) =
      (byEnregGo n l).map (fun p => (p.1, p.2.map (setDate t)))
  | 0, l => by cases l <;> rfl
  | _ + 1, [] => rfl
  | n + 1, m :: rest => by
    obtain ⟨h1, h2⟩ := filter_setDate t m.enregistrement_id rest
    simp only [List.map_cons, byEnregGo]
    rw [show (setDate t m).enregistrement_id = m.enregistrement_id from rfl]
    rw [h1, h2, byEnregGo_setDate t n _]

theorem pyMinKey_setDate (t : ℕ) : ∀ (grp : List Detection) (c : Detection),
    pyMinKey (setDate t c) (grp.map (setDate t)) = setDate t (pyMinKey c grp)
  | [], _ => rfl
  | x :: gr, c => by
    simp only [List.map_cons, pyMinKey_cons]
    by_cases hlt : minKeyLt x c
    · rw [if_pos (show minKeyLt (setDate t x) (setDate t c) from hlt), if_pos hlt]
      exact pyMinKey_setDate t gr x
    · rw [if_neg (show ¬ minKeyLt (setDate t x) (setDate t c) from hlt), if_neg hlt]
      exact pyMinKey_setDate t gr c

theorem takeWhile_setDate (t : ℕ) (c : Detection) (dur : ℚ) : ∀ (l : List Detection),
    (l.map (setDate t)).takeWhile
      (fun m => decide (m.start_seconds - (setDate t c).start_seconds < dur)) =
      (l.takeWhile (fun m => decide (m.start_seconds - c.start_seconds < dur))).map
        (setDate t) ∧
    (l.map (setDate t)).dropWhile
      (fun m => decide (m.start_seconds - (setDate t c).start_seconds < dur)) =
      (l.dropWhile (fun m => decide (m.start_seconds - c.start_seconds < dur))).map
        (setDate t)
  | [] => ⟨rfl, rfl⟩
  | x :: l => by
    obtain ⟨ih1, ih2⟩ := takeWhile_setDate t c dur l
    have hc : (setDate t c).start_seconds = c.start_seconds := rfl
    have hxp : (setDate t x).start_seconds = x.start_seconds := rfl
    constructor <;>
    · simp only [List.map_cons, List.takeWhile_cons, List.dropWhile_cons, hc, hxp] at ih1 ih2 ⊢
      by_cases hx : x.start_seconds - c.start_seconds < dur
      · simp [hx, ih1, ih2]
      · simp [hx, ih1, ih2]

theorem clusterGo_setDate (t : ℕ) (dur : ℚ) : ∀ (n : ℕ) (l : List Detection),
    clusterGo dur n (l.map (setDate t)) = (clusterGo dur n l).map (setDate t)
  | 0, l => by cases l <;> rfl
  | _ + 1, [] => rfl
  | n + 1, c :: rest => by
    obtain ⟨h1, h2⟩ := takeWhile_setDate t c dur rest
    simp only [List.map_cons, clusterGo]
    rw [h1, h2, pyMinKey_setDate t _ c, clusterGo_setDate t dur n _]

theorem insertionSort_setDate (t : ℕ) (r : Detection → Detection → Prop)
    [DecidableRel r] (hiff : ∀ a b, r a b ↔ r (setDate t a) (setDate t b))
    (l : List Detection) :
    List.insertionSort r (l.map (setDate t)) =
      (List.insertionSort r l).map (setDate t) :=
  (List.map_insertionSort r r (setDate t) l (fun a _ b _ => hiff a b)).symm

/-- Deduplication commutes with re-stamping the creation time: the clock
value plays no role in grouping, sorting or clustering. -/
theorem fg_setDate (t : ℕ) (ms : List Detection) (dur : ℚ) :
    filter_and_group_matches (ms.map (setDate t)) dur =
      (filter_and_group_matches ms dur).map (setDate t) := by
  match ms with
  | [] => rfl
  | m :: rest =>
    simp only [filter_and_group_matches, List.map_cons]
    rw [show (setDate t m :: rest.map (setDate t)) = (m :: rest).map (setDate t) from rfl]
    unfold byEnreg
    rw [List.length_map, byEnregGo_setDate t _ _, List.map_map]
    have hmap : ((byEnregGo (m :: rest).length (m :: rest)).map
        ((fun p => clusterScan dur (List.insertionSort startLe p.2)) ∘
          (fun p : ℤ × List Detection => (p.1, p.2.map (setDate t))))) =
        (byEnregGo (m :: rest).length (m :: rest)).map
          (fun p => (clusterScan dur (List.insertionSort startLe p.2)).map (setDate t)) := by
      refine List.map_congr_left ?_
      intro p _
      simp only [Function.comp]
      rw [insertionSort_setDate t startLe (fun a b => Iff.rfl) p.2]
      unfold clusterScan
      rw [List.length_map, clusterGo_setDate t dur _ _]
    rw [hmap]
    rw [show ((byEnregGo (m :: rest).length (m :: rest)).map
        (fun p => (clusterScan dur (List.insertionSort startLe p.2)).map (setDate t))) =
        ((byEnregGo (m :: rest).length (m :: rest)).map
          (fun p => clusterScan dur (List.insertionSort startLe p.2))).map
            (List.map (setDate t)) from (List.map_map _ _ _).symm]
    rw [← List.map_flatten]
    rw [insertionSort_setDate t lexLe (fun a b => Iff.rfl) _]

theorem find_segment_date {d : SpotDetector} (t : ℕ) {sid eid : ℤ}
    {seg : Subtitle} {recs : List Subtitle} {pos dur : ℚ} {hd : Str} :
    find_segment_in_recording d t sid eid seg recs pos dur hd =
      Except.map (List.map (setDate t))
        (find_segment_in_recording d 0 sid eid seg recs pos dur hd) := by
  unfold find_segment_in_recording
  cases htime : SpotDetector.time_to_seconds hd with
  | error e => rfl
  | ok base =>
    simp only [Except.map]
    congr 1
    rw [List.map_filterMap]
    refine List.filterMap_congr ?_
    intro rs _
    dsimp only
    split
    · rfl
    · rfl

theorem collect_segments_date {d : SpotDetector} (t : ℕ) {sid eid : ℤ}
    {recs : List Subtitle} {st dur : ℚ} {hd : Str} :
    ∀ (ss : List Subtitle),
    collect_segments d t sid eid ss recs st dur hd =
      Except.map (List.map (setDate t))
        (collect_segments d 0 sid eid ss recs st dur hd)
  | [] => rfl
  | seg :: rest => by
    unfold collect_segments
    rw [find_segment_date t, collect_segments_date t rest]
    cases hfs : find_segment_in_recording d 0 sid eid seg recs
        (seg.start_seconds - st) dur hd with
    | error e => rfl
    | ok l1 =>
      simp only [Except.map]
      cases hcs : collect_segments d 0 sid eid rest recs st dur hd with
      | error e => rfl
      | ok l2 =>
        simp only [Except.map, List.map_append]

theorem go_recordings_date {d : SpotDetector} (t : ℕ) {sid : ℤ}
    {ss : List Subtitle} {st dur : ℚ} :
    ∀ (rl : List (ℤ × Str × Str)),
    go_recordings d t sid ss st dur rl =
      Except.map (List.map (setDate t)) (go_recordings d 0 sid ss st dur rl)
  | [] => rfl
  | (eid, content, hd) :: rest => by
    unfold go_recordings
    dsimp only
    by_cases hemp : (parse content).isEmpty
    · rw [if_pos hemp, if_pos hemp]
      exact go_recordings_date t rest
    · rw [if_neg hemp, if_neg hemp]
      rw [collect_segments_date t ss, go_recordings_date t rest]
      cases hcs : collect_segments d 0 sid eid ss (parse content) st dur hd with
      | error e => rfl
      | ok l1 =>
        simp only [Except.map]
        cases hgo : go_recordings d 0 sid ss st dur rest with
        | error e => rfl
        | ok l2 => simp only [Except.map, List.map_append]

/-- The wall clock read by `datetime.now()` influences only the
`date_detection` field of the output: a run at time `t` equals the run at
time `0` with every creation stamp replaced. -/
theorem detect_date {d : SpotDetector} (t : ℕ) {sid : ℤ} {sc : Str}
    {recs : List (ℤ × Str × Str)} :
    detect_spot_in_enregistrements d t sid sc recs =
      Except.map (List.map (setDate t))
        (detect_spot_in_enregistrements d 0 sid sc recs) := by
  unfold detect_spot_in_enregistrements
  cases hp : parse sc with
  | nil => rfl
  | cons s0 rest =>
    dsimp only
    rw [go_recordings_date t recs]
    cases hgo : go_recordings d 0 sid (s0 :: rest) s0.start_seconds
        (List.getLastD rest s0).end_seconds recs with
    | error e => rfl
    | ok all =>
      simp only [Except.map]
      rw [← fg_setDate]

/-! ## Properties of the parser -/

theorem foldl_parse (bl : List Str) : ∀ acc : List Subtitle,
    bl.foldl (fun subtitles block =>
      match parseBlock block with
      | some s => subtitles ++ [s]
      | none => subtitles) acc = acc ++ bl.filterMap parseBlock := by
  induction bl with
  | nil => intro acc; simp
  | cons b bl ih =>
    intro acc
    simp only [List.foldl_cons]
    cases hpb : parseBlock b with
    | none => rw [ih, List.filterMap_cons_none hpb]
    | some s =>
      rw [ih, List.filterMap_cons_some hpb]
      simp

/-- `parse` is exactly the in-order collection of the per-block results:
source order is preserved and no segment is reordered or invented. -/
theorem parse_eq (c : Str) :
    parse c = (pyBlocks c).filterMap parseBlock := by
  unfold parse
  rw [foldl_parse]
  rfl

theorem digit_ne {c x : Char} (h : c.isDigit = true) (hx : x.isDigit = false) :
    c ≠ x := by
  intro he
  rw [he, hx] at h
  cases h

theorem digit_not_space {c : Char} (h : c.isDigit = true) : isPySpace c = false := by
  have hne : ∀ x : Char, x.isDigit = false → (c == x) = false :=
    fun x hx => beq_eq_false_iff_ne.2 (digit_ne h hx)
  simp only [isPySpace]
  rw [hne ' ' (by decide), hne '\t' (by decide), hne '\n' (by decide),
    hne '\r' (by decide), hne '\x0b' (by decide), hne '\x0c' (by decide)]
  rfl

theorem dropWhile_eq_self_of {α : Type} (p : α → Bool) (l : List α)
    (h : ∀ x ∈ l, p x = false) : l.dropWhile p = l := by
  cases l with
  | nil => rfl
  | cons c r =>
    rw [List.dropWhile_cons, if_neg]
    simp [h c (List.mem_cons_self _ _)]

theorem pyStrip_eq_self {l : Str} (h : ∀ x ∈ l, isPySpace x = false) :
    pyStrip l = l := by
  unfold pyStrip
  rw [dropWhile_eq_self_of _ _ h]
  rw [dropWhile_eq_self_of _ _ (fun x hx => h x (List.mem_reverse.1 hx))]
  exact List.reverse_reverse l

theorem pySplitChar_ne_nil (c : Char) : ∀ l : Str, pySplitChar c l ≠ []
  | [] => by simp [pySplitChar]
  | d :: r => by
    rw [pySplitChar]
    cases hs : pySplitChar c r with
    | nil => simp
    | cons h t =>
      dsimp only
      split <;> simp

theorem pySplitChar_no (c : Char) : ∀ (l : Str), (∀ x ∈ l, ¬ x = c) →
    pySplitChar c l = [l]
  | [], _ => rfl
  | d :: r, h => by
    rw [pySplitChar, pySplitChar_no c r (fun x hx => h x (List.mem_cons_of_mem _ hx))]
    dsimp only
    rw [if_neg (h d (List.mem_cons_self _ _))]

theorem pySplitChar_app (c : Char) (l2 : Str) : ∀ (l1 : Str),
    (∀ x ∈ l1, ¬ x = c) →
    pySplitChar c (l1 ++ c :: l2) = l1 :: pySplitChar c l2
  | [], _ => by
    rw [List.nil_append, pySplitChar]
    cases hs : pySplitChar c l2 with
    | nil => exact absurd hs (pySplitChar_ne_nil c l2)
    | cons h t =>
      dsimp only
      rw [if_pos rfl]
  | d :: r, h => by
    rw [List.cons_append, pySplitChar,
      pySplitChar_app c l2 r (fun x hx => h x (List.mem_cons_of_mem _ hx))]
    dsimp only
    rw [if_neg (h d (List.mem_cons_self _ _))]

theorem pyInt?_digits {l : Str} (hne : l ≠ []) (hd : ∀ x ∈ l, x.isDigit = true) :
    pyInt? l = some ((natOfDigits l : ℤ)) := by
  have hstrip : pyStrip l = l :=
    pyStrip_eq_self (fun x hx => digit_not_space (hd x hx))
  unfold pyInt?
  dsimp only
  split
  · rename_i rest heq
    rw [hstrip] at heq
    exfalso
    cases l with
    | nil => exact hne rfl
    | cons c r =>
      injection heq with h1 _
      exact absurd (h1 ▸ hd c (List.mem_cons_self _ _)) (by decide)
  · rename_i rest heq
    rw [hstrip] at heq
    exfalso
    cases l with
    | nil => exact hne rfl
    | cons c r =>
      injection heq with h1 _
      exact absurd (h1 ▸ hd c (List.mem_cons_self _ _)) (by decide)
  · rw [hstrip, if_pos]
    rw [Bool.and_eq_true]
    constructor
    · simp [List.isEmpty_iff, hne]
    · rw [List.all_eq_true]
      exact fun x hx => hd x hx

theorem takeWhile_dot (fp : Str) : ∀ (ip : Str), (∀ x ∈ ip, (x == '.') = false) →
    (ip ++ '.' :: fp).takeWhile (fun c => !(c == '.')) = ip ∧
    (ip ++ '.' :: fp).dropWhile (fun c => !(c == '.')) = '.' :: fp
  | [], _ => by
    constructor
    · rw [List.nil_append, List.takeWhile_cons]
      simp
    · rw [List.nil_append, List.dropWhile_cons]
      simp
  | d :: r, h => by
    obtain ⟨ih1, ih2⟩ := takeWhile_dot fp r (fun x hx => h x (List.mem_cons_of_mem _ hx))
    have hd : (d == '.') = false := h d (List.mem_cons_self _ _)
    constructor
    · rw [List.cons_append, List.takeWhile_cons, hd]
      simp only [Bool.not_false, if_true, ih1]
    · rw [List.cons_append, List.dropWhile_cons, hd]
      simp only [Bool.not_false, if_true, ih2]

theorem pyFloat?_digit_dot {ip fp : Str} (hip : ip ≠ [])
    (hdip : ∀ x ∈ ip, x.isDigit = true) (hdfp : ∀ x ∈ fp, x.isDigit = true) :
    pyFloat? (ip ++ '.' :: fp) =
      some ((natOfDigits ip : ℚ) + (natOfDigits fp : ℚ) / (10 : ℚ) ^ fp.length) := by
  have hsp : ∀ x ∈ ip ++ '.' :: fp, isPySpace x = false := by
    intro x hx
    rcases List.mem_append.1 hx with hx | hx
    · exact digit_not_space (hdip x hx)
    · rcases List.mem_cons.1 hx with rfl | hx
      · rfl
      · exact digit_not_space (hdfp x hx)
  have hstrip : pyStrip (ip ++ '.' :: fp) = ip ++ '.' :: fp := pyStrip_eq_self hsp
  have hdot : ∀ x ∈ ip, (x == '.') = false :=
    fun x hx => beq_eq_false_iff_ne.2 (digit_ne (hdip x hx) (by decide))
  obtain ⟨c, r', rfl⟩ : ∃ c r', ip = c :: r' := by
    cases ip with
    | nil => exact absurd rfl hip
    | cons c r' => exact ⟨c, r', rfl⟩
  obtain ⟨htw, hdw⟩ := takeWhile_dot fp (c :: r') hdot
  have hc := hdip c (List.mem_cons_self _ _)
  have hsign : pySign (c :: r' ++ '.' :: fp) = ((1 : ℚ), c :: r' ++ '.' :: fp) := by
    unfold pySign
    split
    · rename_i r heq
      rw [List.cons_append] at heq
      injection heq with h1 _
      exact absurd (h1 ▸ hc) (by decide)
    · rename_i r heq
      rw [List.cons_append] at heq
      injection heq with h1 _
      exact absurd (h1 ▸ hc) (by decide)
    · rfl
  unfold pyFloat?
  dsimp only
  rw [hstrip, hsign]
  dsimp only
  rw [htw, hdw]
  split
  · rename_i heq
    cases heq
  · rename_i fp1 heq
    injection heq with e1 e2
    subst e2
    rw [if_pos]
    · rw [one_mul]
    · simp only [Bool.and_eq_true, Bool.or_eq_true, List.all_eq_true]
      refine ⟨⟨Or.inl ?_, fun x hx => hdip x hx⟩, fun x hx => hdfp x hx⟩
      simp
  · rename_i hne1 hne2
    exact absurd rfl (hne2 fp)

theorem parseTimecode_some {s : Str} {g r : Str}
    (h : parseTimecode s = some (g, r)) :
    ∃ a1 a2 b1 b2 d1 d2 e1 e2 e3 : Char,
      g = [a1, a2, ':', b1, b2, ':', d1, d2, ',', e1, e2, e3] ∧
      a1.isDigit = true ∧ a2.isDigit = true ∧ b1.isDigit = true ∧
      b2.isDigit = true ∧ d1.isDigit = true ∧ d2.isDigit = true ∧
      e1.isDigit = true ∧ e2.isDigit = true ∧ e3.isDigit = true := by
  unfold parseTimecode at h
  split at h
  · rename_i a1 a2 c1 b1 b2 c2 d1 d2 c3 e1 e2 e3 rest
    split at h
    · rename_i hcond
      simp only [Bool.and_eq_true, beq_iff_eq] at hcond
      obtain ⟨⟨⟨⟨⟨⟨⟨⟨⟨⟨⟨h1, h2⟩, h3⟩, h4⟩, h5⟩, h6⟩, h7⟩, h8⟩, h9⟩, h10⟩, h11⟩, h12⟩ := hcond
      injection h with h'
      injection h' with hg hr
      subst h3
      subst h6
      subst h9
      exact ⟨a1, a2, b1, b2, d1, d2, e1, e2, e3, hg.symm,
        h1, h2, h4, h5, h7, h8, h10, h11, h12⟩
    · cases h
  · cases h

/-- Strict reading of a `HH:MM:SS,mmm` timecode, straight from the spec's
words (digit groups valued positionally, milliseconds scaled by 1000);
`none` on any other shape.  This is the specification-side value against
which the parser's arithmetic is compared. -/
def timecodeVal : Str → Option ℚ
  | [h1, h2, c1, m1, m2, c2, s1, s2, c3, x1, x2, x3] =>
    if h1.isDigit ∧ h2.isDigit ∧ c1 = ':' ∧ m1.isDigit ∧ m2.isDigit ∧ c2 = ':' ∧
        s1.isDigit ∧ s2.isDigit ∧ c3 = ',' ∧ x1.isDigit ∧ x2.isDigit ∧ x3.isDigit then
      some (3600 * (natOfDigits [h1, h2] : ℚ) + 60 * (natOfDigits [m1, m2] : ℚ) +
        ((natOfDigits [s1, s2] : ℚ) + (natOfDigits [x1, x2, x3] : ℚ) / 1000))
    else none
  | _ => none

theorem commaMap_digit {c : Char} (h : c.isDigit = true) :
    (if c = ',' then '.' else c) = c :=
  if_neg (digit_ne h (by decide))

theorem sub_time_shape {a1 a2 b1 b2 d1 d2 e1 e2 e3 : Char}
    (h1 : a1.isDigit = true) (h2 : a2.isDigit = true) (h3 : b1.isDigit = true)
    (h4 : b2.isDigit = true) (h5 : d1.isDigit = true) (h6 : d2.isDigit = true)
    (h7 : e1.isDigit = true) (h8 : e2.isDigit = true) (h9 : e3.isDigit = true) :
    sub_time_to_seconds [a1, a2, ':', b1, b2, ':', d1, d2, ',', e1, e2, e3] =
      3600 * (natOfDigits [a1, a2] : ℚ) + 60 * (natOfDigits [b1, b2] : ℚ) +
        ((natOfDigits [d1, d2] : ℚ) + (natOfDigits [e1, e2, e3] : ℚ) / 1000) := by
  unfold sub_time_to_seconds
  have hmap : ([a1, a2, ':', b1, b2, ':', d1, d2, ',', e1, e2, e3].map
      (fun c => if c = ',' then '.' else c)) =
      [a1, a2, ':', b1, b2, ':', d1, d2, '.', e1, e2, e3] := by
    simp only [List.map]
    rw [commaMap_digit h1, commaMap_digit h2, commaMap_digit h3, commaMap_digit h4,
      commaMap_digit h5, commaMap_digit h6, commaMap_digit h7, commaMap_digit h8,
      commaMap_digit h9, if_neg (show ¬(':' : Char) = ',' by decide)]
    simp
  rw [hmap]
  have hsplit : pySplitChar ':' [a1, a2, ':', b1, b2, ':', d1, d2, '.', e1, e2, e3] =
      [[a1, a2], [b1, b2], [d1, d2, '.', e1, e2, e3]] := by
    have e1' : [a1, a2, ':', b1, b2, ':', d1, d2, '.', e1, e2, e3] =
        [a1, a2] ++ ':' :: ([b1, b2] ++ ':' :: [d1, d2, '.', e1, e2, e3]) := rfl
    rw [e1']
    rw [pySplitChar_app ':' _ [a1, a2] (by
      intro x hx
      rcases List.mem_cons.1 hx with rfl | hx
      · exact digit_ne h1 (by decide)
      · rcases List.mem_cons.1 hx with rfl | hx
        · exact digit_ne h2 (by decide)
        · cases hx)]
    rw [pySplitChar_app ':' _ [b1, b2] (by
      intro x hx
      rcases List.mem_cons.1 hx with rfl | hx
      · exact digit_ne h3 (by decide)
      · rcases List.mem_cons.1 hx with rfl | hx
        · exact digit_ne h4 (by decide)
        · cases hx)]
    rw [pySplitChar_no ':' _ (by
      intro x hx
      have hall : ∀ y ∈ [d1, d2, '.', e1, e2, e3], ¬ y = ':' := by
        intro y hy
        rcases List.mem_cons.1 hy with rfl | hy
        · exact digit_ne h5 (by decide)
        · rcases List.mem_cons.1 hy with rfl | hy
          · exact digit_ne h6 (by decide)
          · rcases List.mem_cons.1 hy with rfl | hy
            · decide
            · rcases List.mem_cons.1 hy with rfl | hy
              · exact digit_ne h7 (by decide)
              · rcases List.mem_cons.1 hy with rfl | hy
                · exact digit_ne h8 (by decide)
                · rcases List.mem_cons.1 hy with rfl | hy
                  · exact digit_ne h9 (by decide)
                  · cases hy
      exact hall x hx)]
  rw [hsplit]
  dsimp only
  rw [pyInt?_digits (by simp) (by
    intro x hx
    rcases List.mem_cons.1 hx with rfl | hx
    · exact h1
    · rcases List.mem_cons.1 hx with rfl | hx
      · exact h2
      · cases hx)]
  rw [pyInt?_digits (by simp) (by
    intro x hx
    rcases List.mem_cons.1 hx with rfl | hx
    · exact h3
    · rcases List.mem_cons.1 hx with rfl | hx
      · exact h4
      · cases hx)]
  rw [show [d1, d2, '.', e1, e2, e3] = [d1, d2] ++ '.' :: [e1, e2, e3] from rfl]
  rw [pyFloat?_digit_dot (by simp) (by
    intro x hx
    rcases List.mem_cons.1 hx with rfl | hx
    · exact h5
    · rcases List.mem_cons.1 hx with rfl | hx
      · exact h6
      · cases hx) (by
    intro x hx
    rcases List.mem_cons.1 hx with rfl | hx
    · exact h7
    · rcases List.mem_cons.1 hx with rfl | hx
      · exact h8
      · rcases List.mem_cons.1 hx with rfl | hx
        · exact h9
        · cases hx)]
  dsimp only
  push_cast
  norm_num
  ring

theorem timecodeVal_shape {a1 a2 b1 b2 d1 d2 e1 e2 e3 : Char}
    (h1 : a1.isDigit = true) (h2 : a2.isDigit = true) (h3 : b1.isDigit = true)
    (h4 : b2.isDigit = true) (h5 : d1.isDigit = true) (h6 : d2.isDigit = true)
    (h7 : e1.isDigit = true) (h8 : e2.isDigit = true) (h9 : e3.isDigit = true) :
    timecodeVal [a1, a2, ':', b1, b2, ':', d1, d2, ',', e1, e2, e3] =
      some (sub_time_to_seconds [a1, a2, ':', b1, b2, ':', d1, d2, ',', e1, e2, e3]) := by
  rw [sub_time_shape h1 h2 h3 h4 h5 h6 h7 h8 h9]
  unfold timecodeVal
  dsimp only
  rw [if_pos]
  exact ⟨h1, h2, rfl, h3, h4, rfl, h5, h6, rfl, h7, h8, h9⟩

theorem matchTimeLine_some {s : Str} {g1 g2 : Str}
    (h : matchTimeLine s = some (g1, g2)) :
    (timecodeVal g1 = some (sub_time_to_seconds g1)) ∧
    (timecodeVal g2 = some (sub_time_to_seconds g2)) := by
  unfold matchTimeLine at h
  split at h
  · cases h
  · rename_i ga ra hp1
    split at h
    · cases h
    · rename_i r3 ha
      split at h
      · cases h
      · rename_i gb rb hq1
        injection h with h'
        injection h' with hga hgb
        subst hga
        subst hgb
        constructor
        · obtain ⟨x1, x2, x3, x4, x5, x6, x7, x8, x9, hg, d1, d2, d3, d4, d5, d6, d7, d8, d9⟩ :=
            parseTimecode_some hp1
          rw [hg]
          exact timecodeVal_shape d1 d2 d3 d4 d5 d6 d7 d8 d9
        · obtain ⟨x1, x2, x3, x4, x5, x6, x7, x8, x9, hg, d1, d2, d3, d4, d5, d6, d7, d8, d9⟩ :=
            parseTimecode_some hq1
          rw [hg]
          exact timecodeVal_shape d1 d2 d3 d4 d5 d6 d7 d8 d9

/-- Every segment emitted by `parseBlock` carries second offsets equal to the
strict value of its matched timecodes: the `0.0` degradation path is
unreachable for emitted segments. -/
theorem parseBlock_timecodeVal {block : Str} {s : Subtitle}
    (h : parseBlock block = some s) :
    timecodeVal s.start_time = some s.start_seconds ∧
    timecodeVal s.end_time = some s.end_seconds := by
  unfold parseBlock at h
  dsimp only at h
  split at h
  · cases h
  · cases hint : pyInt? ((pySplitChar '\n' (pyStrip block)).headD []) with
    | none => rw [hint] at h; cases h
    | some index =>
      rw [hint] at h
      cases hmt : matchTimeLine ((pySplitChar '\n' (pyStrip block)).getD 1 []) with
      | none => rw [hmt] at h; cases h
      | some p =>
        obtain ⟨g1, g2⟩ := p
        rw [hmt] at h
        cases h
        exact matchTimeLine_some hmt

/-! ## Concrete data used by witnesses and counterexamples -/

/-- A one-segment spot transcript: `promo code alpha`, 0s–2s. -/
def spotSRT : Str := "1\n00:00:00,000 --> 00:00:02,000\npromo code alpha".toList

/-- A one-segment recording transcript containing the spot text verbatim in
a segment starting at 100.0s. -/
def recSRT : Str :=
  "1\n00:01:40,000 --> 00:01:43,000\nwe have promo code alpha here".toList

/-- The detection produced by the scenario above (clock value `now`). -/
def detC4 (now : ℕ) : Detection :=
  ⟨none, 1, 7, "06:01:40,000".toList, "06:01:42,000".toList, 21700, 21702,
    100, "exact".toList, now, none, none, none, none, none⟩

/-- Candidate detections at starts 0, 5 and 9 of the same recording. -/
def detAt (q : ℚ) : Detection :=
  ⟨none, 1, 1, [], [], q, q + 2, 90, "fuzzy".toList, 0, none, none, none, none, none⟩

/-! ## The claims -/

/-- C1 (counterexample): the operation is not total on malformed day-anchor
strings.  With a parseable spot and recording but the day anchor
`"garbage"`, `int("garbage")` raises inside `_time_to_seconds` and the
exception escapes `detect_spot_in_enregistrements`. -/
theorem claim1_counterexample :
    detect_spot_in_enregistrements mkSpotDetector 0 1 spotSRT
      [(7, recSRT, "garbage".toList)] = .error () := by
  with_unfolding_all rfl

/-- C1 (amended): `detect_spot_in_enregistrements` is total and returns a
(possibly empty) detection list for every input whose day-anchor strings
are accepted by `_time_to_seconds` (at least three `:`-separated fields,
the first three parseable as integers); malformed transcripts and spots
never raise, only malformed anchors of processed recordings do. -/
theorem claim1_total_on_wellformed_anchors
    (d : SpotDetector) (now : ℕ) (spot_id : ℤ) (spot_content : Str)
    (enregistrements : List (ℤ × Str × Str))
    (hanchors : ∀ e ∈ enregistrements, anchorOk e.2.2) :
    ∃ ds, detect_spot_in_enregistrements d now spot_id spot_content
      enregistrements = .ok ds :=
  detect_total hanchors

/-- C1 (witness): the totality theorem applied to a concrete well-formed
batch. -/
theorem claim1_witness :
    (∀ e ∈ [((7 : ℤ), recSRT, "06:00:00".toList)], anchorOk e.2.2) ∧
    ∃ ds, detect_spot_in_enregistrements mkSpotDetector 0 1 spotSRT
      [((7 : ℤ), recSRT, "06:00:00".toList)] = .ok ds := by
  have hanch : ∀ e ∈ [((7 : ℤ), recSRT, "06:00:00".toList)], anchorOk e.2.2 := by
    intro e he
    rw [List.mem_singleton] at he
    subst he
    exact ⟨21600, by with_unfolding_all rfl⟩
  exact ⟨hanch, claim1_total_on_wellformed_anchors mkSpotDetector 0 1 spotSRT _ hanch⟩

/-- C2 (counterexample): the survivor of a qualifying pair need not be the
one with the smaller start.  With candidates at 0, 5 and 9 and spot
duration 6, the pair (5, 9) is within the window, yet 9 survives and 5
does not (5 was absorbed into the cluster anchored at 0). -/
theorem claim2_counterexample :
    detAt 9 ∈ filter_and_group_matches [detAt 0, detAt 5, detAt 9] 6 ∧
    detAt 5 ∉ filter_and_group_matches [detAt 0, detAt 5, detAt 9] 6 ∧
    (detAt 5).enregistrement_id = (detAt 9).enregistrement_id ∧
    |(detAt 5).start_seconds - (detAt 9).start_seconds| < 6 ∧
    (detAt 5).start_seconds < (detAt 9).start_seconds := by
  refine ⟨?_, ?_, rfl, ?_, ?_⟩
  · rw [show filter_and_group_matches [detAt 0, detAt 5, detAt 9] 6 =
      [detAt 0, detAt 9] from by with_unfolding_all rfl]
    exact List.mem_cons_of_mem _ (List.mem_singleton.2 rfl)
  · rw [show filter_and_group_matches [detAt 0, detAt 5, detAt 9] 6 =
      [detAt 0, detAt 9] from by with_unfolding_all rfl]
    intro hmem
    rcases List.mem_cons.1 hmem with h | h
    · exact absurd (congrArg Detection.start_seconds h) (by with_unfolding_all decide)
    · rcases List.mem_singleton.1 h with h
      exact absurd (congrArg Detection.start_seconds h) (by with_unfolding_all decide)
  · rw [show |(detAt 5).start_seconds - (detAt 9).start_seconds| = 4 from by
      rw [show (detAt 5).start_seconds - (detAt 9).start_seconds = -4 from by
        with_unfolding_all rfl]
      rw [abs_of_nonpos (by norm_num)]
      norm_num]
    norm_num
  · show (5 : ℚ) < 9
    norm_num

/-- C2 (amended): for all candidates `a, b` of the same recording with
`|a.start − b.start| < spotDuration`, at most one survives deduplication —
stated as: the survivors are pairwise at least `spotDuration` apart within
each recording.  The surviving one, however, is not in general the
pair's smaller-start member (see the counterexample): the greedy scan
keeps each cluster's `(start, −confidence)`-minimal member, and a
qualifying pair may straddle two clusters. -/
theorem claim2_at_most_one_survives (ms : List Detection) (dur : ℚ) :
    List.Pairwise (R dur) (filter_and_group_matches ms dur) :=
  fg_pairwise ms dur

/-- C3: whenever the lowercased, trimmed haystack contains the lowercased,
trimmed needle as a substring, `find_in_text` returns the original needle
text with confidence exactly 100. -/
theorem claim3_exact_match (m : FuzzyMatcher) (needle haystack : Str)
    (h : pyStrip (pyLower needle) <:+: pyStrip (pyLower haystack)) :
    FuzzyMatcher.find_in_text m needle haystack = (some needle, 100) := by
  rw [find_in_text_eq, if_pos h]

/-- C3 (witness): the exact-match branch on a concrete containment. -/
theorem claim3_witness :
    (pyStrip (pyLower "Promo Code".toList) <:+:
      pyStrip (pyLower "  say PROMO code now  ".toList)) ∧
    FuzzyMatcher.find_in_text ⟨85, 2⟩ "Promo Code".toList
      "  say PROMO code now  ".toList = (some "Promo Code".toList, 100) :=
  ⟨by decide, claim3_exact_match ⟨85, 2⟩ _ _ (by decide)⟩

/-- C4: the end-to-end scenario.  A spot with single segment
`promo code alpha` (0s–2s) and a recording anchored at `06:00:00`
containing the text in a segment starting at 100.0s yields exactly one
detection: start 21700.0, end 21702.0, confidence 100, kind `exact`. -/
theorem claim4_scenario (now : ℕ) :
    detect_spot_in_enregistrements mkSpotDetector now 1 spotSRT
      [(7, recSRT, "06:00:00".toList)] = .ok [detC4 now] := by
  with_unfolding_all rfl

/-- C5: deduplication is idempotent — applying
`_filter_and_group_matches` to its own output returns it unchanged. -/
theorem claim5_dedup_idempotent (ms : List Detection) (dur : ℚ) :
    filter_and_group_matches (filter_and_group_matches ms dur) dur =
      filter_and_group_matches ms dur :=
  fg_id (fg_sorted ms dur) (fg_pairwise ms dur)

/-- C6: every confidence returned by `find_in_text` lies in `[0, 100]`, and
every detection emitted by the detector has confidence in `[0, 100]` with
`match_type = "exact"` exactly when the confidence is 100 and `"fuzzy"`
otherwise. -/
theorem claim6_match_kind_confidence :
    (∀ (m : FuzzyMatcher) (needle haystack : Str),
      0 ≤ (FuzzyMatcher.find_in_text m needle haystack).2 ∧
      (FuzzyMatcher.find_in_text m needle haystack).2 ≤ 100) ∧
    (∀ (d : SpotDetector) (now : ℕ) (sid : ℤ) (sc : Str)
      (recs : List (ℤ × Str × Str)) (ds : List Detection) (x : Detection),
      detect_spot_in_enregistrements d now sid sc recs = .ok ds → x ∈ ds →
      ((x.match_type = "exact".toList ↔ x.confidence = 100) ∧
        (¬ x.confidence = 100 → x.match_type = "fuzzy".toList) ∧
        0 ≤ x.confidence ∧ x.confidence ≤ 100)) :=
  ⟨find_in_text_conf_bounds,
    fun _ _ _ _ _ _ x h hx => detect_DetOK h x hx⟩

/-- C6 (witness): the detection contract evaluated on the concrete scenario
detection. -/
theorem claim6_witness :
    ((detC4 0).match_type = "exact".toList ↔ (detC4 0).confidence = 100) ∧
    (¬ (detC4 0).confidence = 100 → (detC4 0).match_type = "fuzzy".toList) ∧
    0 ≤ (detC4 0).confidence ∧ (detC4 0).confidence ≤ 100 :=
  claim6_match_kind_confidence.2 mkSpotDetector 0 1 spotSRT
    [(7, recSRT, "06:00:00".toList)] [detC4 0] (detC4 0)
    (by with_unfolding_all rfl) (List.mem_singleton.2 rfl)

/-- C7 (counterexample): a block that is well-formed in the claim's sense
(integer index, regex-matching time line, non-empty text) may still yield
`start_seconds > end_seconds` with neither value degraded to 0.0: the
parser performs no monotonicity check. -/
theorem claim7_counterexample :
    (parse "1\n00:00:05,000 --> 00:00:01,000\nx".toList).map
      (fun s => (s.start_seconds, s.end_seconds)) = [((5 : ℚ), (1 : ℚ))] ∧
    ¬ ((5 : ℚ) ≤ 1 ∨ (5 : ℚ) = 0 ∨ (1 : ℚ) = 0) := by
  constructor
  · with_unfolding_all rfl
  · push_neg
    norm_num

/-- C7 (amended): `parse` emits the surviving segments in source order (it
is exactly the in-order `filterMap` of the per-block parser over the
blocks), and every emitted segment's `start_seconds`/`end_seconds` equal
the strict positional value of its matched `HH:MM:SS,mmm` timecodes — the
`0.0` degradation never fires for emitted segments.  `start ≤ end` holds
exactly when the start timecode's value does not exceed the end's, which
block well-formedness alone does not force (see the counterexample). -/
theorem claim7_parse_order_and_values (content : Str) :
    parse content = (pyBlocks content).filterMap parseBlock ∧
    ∀ s ∈ parse content,
      timecodeVal s.start_time = some s.start_seconds ∧
      timecodeVal s.end_time = some s.end_seconds := by
  refine ⟨parse_eq content, ?_⟩
  intro s hs
  rw [parse_eq content] at hs
  obtain ⟨b, _, hpb⟩ := List.mem_filterMap.1 hs
  exact parseBlock_timecodeVal hpb

/-- C7 (witness): the spec's own two-block scenario, first segment. -/
theorem claim7_witness :
    timecodeVal (mkSubtitle 1 "00:00:01,000".toList "00:00:02,000".toList
      "Hello".toList).start_time =
      some (mkSubtitle 1 "00:00:01,000".toList "00:00:02,000".toList
        "Hello".toList).start_seconds ∧
    timecodeVal (mkSubtitle 1 "00:00:01,000".toList "00:00:02,000".toList
      "Hello".toList).end_time =
      some (mkSubtitle 1 "00:00:01,000".toList "00:00:02,000".toList
        "Hello".toList).end_seconds :=
  (claim7_parse_order_and_values
      "1\n00:00:01,000 --> 00:00:02,000\nHello\n\n2\n00:00:03,000 --> 00:00:04,000\nWorld".toList).2
    (mkSubtitle 1 "00:00:01,000".toList "00:00:02,000".toList "Hello".toList)
    (by with_unfolding_all decide)

/-- C8 (counterexample): two runs with identical arguments are not field-for-
field identical — invocations at different wall-clock instants differ in
the `date_detection` field of the emitted detections. -/
theorem claim8_counterexample :
    detect_spot_in_enregistrements mkSpotDetector 0 1 spotSRT
      [(7, recSRT, "06:00:00".toList)] ≠
    detect_spot_in_enregistrements mkSpotDetector 1 1 spotSRT
      [(7, recSRT, "06:00:00".toList)] := by
  have h0 : detect_spot_in_enregistrements mkSpotDetector 0 1 spotSRT
      [(7, recSRT, "06:00:00".toList)] = .ok [detC4 0] := by
    with_unfolding_all rfl
  have h1 : detect_spot_in_enregistrements mkSpotDetector 1 1 spotSRT
      [(7, recSRT, "06:00:00".toList)] = .ok [detC4 1] := by
    with_unfolding_all rfl
  intro h
  rw [h0, h1] at h
  have h2 := Except.ok.inj h
  have h3 := congrArg (List.map Detection.date_detection) h2
  simp [detC4] at h3

/-- C8 (amended): the pipeline is deterministic in everything except the
creation timestamp: two invocations with identical arguments return
identical detection lists once `date_detection` (the only field fed by
`datetime.now()`) is disregarded. -/
theorem claim8_deterministic_up_to_clock (d : SpotDetector) (t1 t2 : ℕ)
    (sid : ℤ) (sc : Str) (recs : List (ℤ × Str × Str)) :
    Except.map (List.map (setDate 0))
        (detect_spot_in_enregistrements d t1 sid sc recs) =
      Except.map (List.map (setDate 0))
        (detect_spot_in_enregistrements d t2 sid sc recs) := by
  rw [detect_date t1, detect_date t2]
  cases detect_spot_in_enregistrements d 0 sid sc recs with
  | error e => rfl
  | ok l =>
    simp only [Except.map, List.map_map]
    rfl

/-- C9: the reserved `max_distance` configuration field is never consulted:
matchers sharing a threshold but differing in `max_distance` return
identical results on every input. -/
theorem claim9_max_distance_unused (t : ℚ) (dist1 dist2 : ℤ)
    (needle haystack : Str) :
    FuzzyMatcher.find_in_text ⟨t, dist1⟩ needle haystack =
      FuzzyMatcher.find_in_text ⟨t, dist2⟩ needle haystack := rfl

/-- Helper: a needle that trims to the empty string takes the exact branch. -/
theorem find_in_text_trivial_needle (m : FuzzyMatcher) (needle haystack : Str)
    (h : pyStrip (pyLower needle) = []) :
    FuzzyMatcher.find_in_text m needle haystack = (some needle, 100) := by
  rw [find_in_text_eq, if_pos (h ▸ List.nil_infix)]

/-- C10 (counterexample): `find_in_text` does return `(needle, 100.0)` for an
empty needle, but the detector's truthiness check discards the empty
matched text, so a spot segment with empty text produces no candidate at
all against a recording segment — contrary to the claim's consequence. -/
theorem claim10_counterexample :
    FuzzyMatcher.find_in_text mkSpotDetector.matcher
      (mkSubtitle 1 "00:00:00,000".toList "00:00:01,000".toList []).text
      "hello world".toList = (some [], 100) ∧
    find_segment_in_recording mkSpotDetector 0 1 1
      (mkSubtitle 1 "00:00:00,000".toList "00:00:01,000".toList [])
      [mkSubtitle 1 "00:00:05,000".toList "00:00:06,000".toList
        "hello world".toList] 0 2 "06:00:00".toList = .ok [] := by
  constructor
  · with_unfolding_all rfl
  · with_unfolding_all rfl

/-- C10 (amended): for every haystack, a needle that is empty or trims to
empty takes the exact-containment branch and yields `(needle, 100.0)`;
but a spot segment with empty text produces no candidate matches, because
`_find_segment_in_recording` requires the matched text to be truthy and
the empty string is falsy in Python. -/
theorem claim10_empty_needle :
    (∀ (m : FuzzyMatcher) (needle haystack : Str),
      pyStrip (pyLower needle) = [] →
      FuzzyMatcher.find_in_text m needle haystack = (some needle, 100)) ∧
    (∀ (d : SpotDetector) (now : ℕ) (sid eid : ℤ) (seg : Subtitle)
      (recs : List Subtitle) (pos dur : ℚ) (hd : Str) (base : ℚ),
      seg.text = [] → SpotDetector.time_to_seconds hd = .ok base →
      find_segment_in_recording d now sid eid seg recs pos dur hd = .ok []) := by
  refine ⟨find_in_text_trivial_needle, ?_⟩
  intro d now sid eid seg recs pos dur hd base hseg htime
  unfold find_segment_in_recording
  rw [htime]
  show Except.ok _ = Except.ok []
  congr 1
  rw [List.filterMap_eq_nil_iff]
  intro rs _
  dsimp only
  rw [hseg, find_in_text_trivial_needle d.matcher [] rs.text rfl]
  rw [if_neg]
  intro hcond
  exact absurd hcond.1 (by decide)

/-- C10 (witness): the amended claim applied at a concrete whitespace-only
needle and a concrete empty-text segment. -/
theorem claim10_witness :
    (pyStrip (pyLower "  ".toList) = [] ∧
      FuzzyMatcher.find_in_text ⟨85, 2⟩ "  ".toList "abc".toList =
        (some "  ".toList, 100)) ∧
    ((mkSubtitle 2 "00:00:00,000".toList "00:00:01,000".toList []).text = [] ∧
      SpotDetector.time_to_seconds "07:30:00".toList = .ok 27000 ∧
      find_segment_in_recording mkSpotDetector 5 1 2
        (mkSubtitle 2 "00:00:00,000".toList "00:00:01,000".toList [])
        [mkSubtitle 1 "00:00:05,000".toList "00:00:06,000".toList
          "abc".toList] 0 3 "07:30:00".toList = .ok []) := by
  refine ⟨⟨by decide, claim10_empty_needle.1 ⟨85, 2⟩ _ _ (by decide)⟩,
    ⟨rfl, by with_unfolding_all rfl, claim10_empty_needle.2 mkSpotDetector 5 1 2 _ _
      0 3 "07:30:00".toList 27000 rfl (by with_unfolding_all rfl)⟩⟩

end SpotDetect
